import Mathlib

/-!
# Verification of the `helper` package of `indicator`

A shallow embedding of the stream operators (`Apply`, `Operate`, `Abs`) and of
the report builder (`Report`, `annotationReportColumn`) of package `helper`,
followed by the properties established about them.

Channels.  Every input channel considered here is *finite and closed*: its
producer sends finitely many values and then closes it.  The receiving end of
such a channel is the list of the values that have not been received yet,
oldest first; receiving from the empty list is receiving from the closed,
exhausted channel.  The sending end of an output channel records the values
the worker has handed over so far and whether the worker has closed it.
-/

namespace helper

/-! ## Channels -/

/-- Receiving end of a finite, closed channel: the values still to be
received, oldest first. -/
abbrev RecvChan (T : Type) := List T

/-- The receive `v, ok := <-c`.  The first component is `some v` when a value
was received (`ok`), `none` when the channel is closed and exhausted (`!ok`);
the second component is the channel afterwards. -/
def recv {T : Type} : RecvChan T → Option T × RecvChan T
  | [] => (none, [])
  | v :: c => (some v, c)

/-- Sending end of an output channel, as its owning worker leaves it: the
values sent so far, oldest first, and whether `close` has run. -/
structure SendChan (T : Type) where
  sent : List T
  closed : Bool
deriving DecidableEq, Repr

/-- The allocation `make(chan T)`: nothing sent, not closed. -/
def make {T : Type} : SendChan T := { sent := [], closed := false }

/-- The send `ch <- v`. -/
def SendChan.send {T : Type} (ch : SendChan T) (v : T) : SendChan T :=
  { ch with sent := ch.sent ++ [v] }

/-- The call `close(ch)`. -/
def SendChan.close {T : Type} (ch : SendChan T) : SendChan T :=
  { ch with closed := true }

/-! ## apply.go -/

/-- What the worker of `Apply` leaves behind: its input channel `c` and its
output channel `ac`. -/
structure ApplyState (T : Type) where
  c : RecvChan T
  ac : SendChan T
deriving DecidableEq, Repr

/-- The loop `for n := range c { ac <- f(n) }` of the worker of `Apply`,
started with input `c` and output `ac`. -/
def Apply.loop {T : Type} (f : T → T) : RecvChan T → SendChan T → ApplyState T
  | [], ac => { c := [], ac := ac }
  | n :: c, ac => Apply.loop f c (ac.send (f n))

/-- The worker of `Apply`: allocate `ac`, run the loop, and close `ac` on the
way out (`defer close(ac)`). -/
def Apply.worker {T : Type} (c : RecvChan T) (f : T → T) : ApplyState T :=
  let s := Apply.loop f c make
  { s with ac := s.ac.close }

/-- `Apply(c, f)`: the output channel the worker produces for a consumer that
reads it to the end. -/
def Apply {T : Type} (c : RecvChan T) (f : T → T) : SendChan T :=
  (Apply.worker c f).ac

/-! ## operate.go -/

/-- Modelled from the spec: `Drain`, which `Operate` calls and whose source is
not among the files at hand.  Section 4.1: "block-read and discard every value
until end-of-stream, then return; no output, no transformation".  The result
is the list of discarded values, in the order read, and the channel
afterwards. -/
def Drain {T : Type} : RecvChan T → List T × RecvChan T
  | [] => ([], [])
  | v :: c => (v :: (Drain c).1, (Drain c).2)

/-- What the worker of `Operate` does, step by step (a record kept alongside
the state; the Go code keeps none). -/
inductive Event (A B R : Type) where
  /-- `an, ok := <-ac` received `an`. -/
  | recvA (an : A)
  /-- `an, ok := <-ac` found `ac` ended. -/
  | endA
  /-- `bn, ok := <-bc` received `bn`. -/
  | recvB (bn : B)
  /-- `bn, ok := <-bc` found `bc` ended. -/
  | endB
  /-- `o(an, bn)` was evaluated. -/
  | call (an : A) (bn : B)
  /-- `oc <- r` was sent. -/
  | send (r : R)
  /-- `Drain(ac)` read and discarded `v`. -/
  | drainA (v : A)
  /-- `Drain(bc)` read and discarded `v`. -/
  | drainB (v : B)
  /-- `close(oc)` ran. -/
  | close
deriving DecidableEq, Repr

/-- What the worker of `Operate` leaves behind: both input channels, the
output channel, and the record of its steps. -/
structure OperateState (A B R : Type) where
  ac : RecvChan A
  bc : RecvChan B
  oc : SendChan R
  log : List (Event A B R)
deriving DecidableEq, Repr

/-- The events of one complete iteration of the loop of `Operate`. -/
def Operate.pairEvents {A B R : Type} (o : A → B → R) (p : A × B) :
    List (Event A B R) :=
  [.recvA p.1, .recvB p.2, .call p.1 p.2, .send (o p.1 p.2)]

/-- The `for` loop of the worker of `Operate`, started with inputs `ac`, `bc`,
output `oc` and record `log`.  First clause: `ac` has ended, so `Drain(bc)` and
`break`.  Second clause: `an` was received and `bc` has ended, so `Drain(ac)`
and `break`.  Third clause: both were received, `oc <- o(an, bn)`, next
iteration. -/
def Operate.loop {A B R : Type} (o : A → B → R) :
    RecvChan A → RecvChan B → SendChan R → List (Event A B R) → OperateState A B R
  | [], bc, oc, log =>
      { ac := [], bc := (Drain bc).2, oc := oc,
        log := log ++ [.endA] ++ (Drain bc).1.map .drainB }
  | an :: ac, [], oc, log =>
      { ac := (Drain ac).2, bc := [], oc := oc,
        log := log ++ [.recvA an, .endB] ++ (Drain ac).1.map .drainA }
  | an :: ac, bn :: bc, oc, log =>
      Operate.loop o ac bc (oc.send (o an bn)) (log ++ Operate.pairEvents o (an, bn))

/-- The worker of `Operate`: allocate `oc`, run the loop, and close `oc` on
the way out (`defer close(oc)`). -/
def Operate.worker {A B R : Type} (ac : RecvChan A) (bc : RecvChan B) (o : A → B → R) :
    OperateState A B R :=
  let s := Operate.loop o ac bc make []
  { s with oc := s.oc.close, log := s.log ++ [.close] }

/-- `Operate(ac, bc, o)`: the output channel the worker produces for a
consumer that reads it to the end. -/
def Operate {A B R : Type} (ac : RecvChan A) (bc : RecvChan B) (o : A → B → R) :
    SendChan R :=
  (Operate.worker ac bc o).oc

/-- The value an event reads from `ac`, by the loop or by `Drain(ac)`. -/
def Event.readA? {A B R : Type} : Event A B R → Option A
  | .recvA an => some an
  | .drainA v => some v
  | _ => none

/-- The value an event reads from `bc`, by the loop or by `Drain(bc)`. -/
def Event.readB? {A B R : Type} : Event A B R → Option B
  | .recvB bn => some bn
  | .drainB v => some v
  | _ => none

/-- The arguments an event passes to `o`. -/
def Event.call? {A B R : Type} : Event A B R → Option (A × B)
  | .call an bn => some (an, bn)
  | _ => none

/-- The events of the last, incomplete iteration of the loop of `Operate` on
inputs `a` and `b`, the `Drain` it runs included: what is left of `a` after
`b.length` complete iterations decides which input ends first. -/
def Operate.lastEvents {A B R : Type} (a : List A) (b : List B) : List (Event A B R) :=
  match a.drop b.length with
  | [] => .endA :: (b.drop a.length).map .drainB
  | an :: rest => .recvA an :: .endB :: rest.map .drainA

/-! ## abs.go -/

/-- Number of low bits an integer of magnitude `m` loses when it is stored
with the 53-bit significand of a `float64`: the least `e` with
`m / 2 ^ e < 2 ^ 53`, searched up to `fuel`. -/
def float64.excessBits : Nat → Nat → Nat
  | 0, _ => 0
  | fuel + 1, m => if m < 2 ^ 53 then 0 else float64.excessBits fuel (m / 2) + 1

/-- The magnitude `m` rounded to a 53-bit significand, to nearest with ties
to even (the IEEE 754 default): the value of the `float64` nearest to `m`.
Go integers have at most 64 bits, so a search depth of 64 covers them. -/
def float64.roundNat (m : Nat) : Nat :=
  let e := float64.excessBits 64 m
  let q := m / 2 ^ e
  let r := m % 2 ^ e
  let up : Bool := decide (2 ^ e < 2 * r) || (decide (2 * r = 2 ^ e) && decide (q % 2 = 1))
  (if up then q + 1 else q) * 2 ^ e

/-- The conversion `float64(n)` of an integer `n`: the exact value of the
resulting `float64`, which is again an integer. -/
def float64.ofInt (n : Int) : Int :=
  if n < 0 then -((float64.roundNat n.natAbs : Nat) : Int)
  else ((float64.roundNat n.natAbs : Nat) : Int)

/-- The call `math.Abs(x)` on an integer-valued `float64`: the sign bit is
cleared, the magnitude kept exactly. -/
def math.Abs (x : Int) : Int := |x|

/-- The conversion `T(x)` of an integer-valued `float64` to the signed
integer type `T` of `w` bits.  A value `T` can represent converts to itself;
for any other value the Go specification leaves the result
implementation-dependent, and `impl` stands for what the platform yields. -/
def intOfFloat64 (w : Nat) (impl : Int → Int) (x : Int) : Int :=
  if -(2 : Int) ^ (w - 1) ≤ x ∧ x < (2 : Int) ^ (w - 1) then x else impl x

/-- The function literal of `Abs`, `func(n T) T { return T(math.Abs(float64(n))) }`,
for the signed integer type `T` of `w` bits. -/
def Abs.fn (w : Nat) (impl : Int → Int) (n : Int) : Int :=
  intOfFloat64 w impl (math.Abs (float64.ofInt n))

/-- `Abs(c)` for the signed integer type of `w` bits: `Apply` of the function
literal. -/
def Abs (w : Nat) (impl : Int → Int) (c : RecvChan Int) : SendChan Int :=
  Apply c (Abs.fn w impl)

/-! ## report.go -/

/-- The struct `Report`.  `Time` stands for `time.Time` and `Column` for the
interface `ReportColumn`; chart and column identifiers are Go `int`s.  A chart
is the list of its entries, which describes the reports whose charts share no
storage; `Mem.Report` below keeps the slices and their backing arrays. -/
structure Report (Time Column : Type) where
  Title : String
  Date : RecvChan Time
  Columns : List Column
  Views : List (List Int)
  DateFormat : String
  GeneratedOn : String
deriving DecidableEq, Repr

/-- The constant `DefaultReportDateFormat`. -/
def DefaultReportDateFormat : String := "2006-01-02"

/-- `NewReport(title, date)`; `now` is the text `time.Now().String()` yields
at the call. -/
def NewReport {Time Column : Type} (title : String) (date : RecvChan Time) (now : String) :
    Report Time Column :=
  { Title := title
    Date := date
    Columns := []
    Views := [[]]
    DateFormat := DefaultReportDateFormat
    GeneratedOn := now }

/-- `r.AddChart()`: the report afterwards and the returned identifier. -/
def Report.AddChart {Time Column : Type} (r : Report Time Column) :
    Report Time Column × Int :=
  let r1 := { r with Views := r.Views ++ [[]] }
  (r1, (r1.Views.length : Int) - 1)

/-- The run-time panic of an index expression, "index out of range [index]
with length length". -/
inductive RuntimeError where
  | indexOutOfRange (index : Int) (length : Nat)
deriving DecidableEq, Repr

/-- The statement `r.Views[chartID] = append(r.Views[chartID], columnID)` on
the slice `views`: it panics unless `0 <= chartID < len(views)`. -/
def Report.appendToView (views : List (List Int)) (chartID columnID : Int) :
    Except RuntimeError (List (List Int)) :=
  if h : 0 ≤ chartID ∧ chartID.toNat < views.length then
    .ok (views.set chartID.toNat (views[chartID.toNat] ++ [columnID]))
  else
    .error (.indexOutOfRange chartID views.length)

/-- The loop `for _, chartID := range charts` of `AddColumn` on the slice
`views`. -/
def Report.appendToViews (columnID : Int) :
    List (List Int) → List Int → Except RuntimeError (List (List Int))
  | views, [] => .ok views
  | views, chartID :: charts =>
      match Report.appendToView views chartID columnID with
      | .ok views1 => Report.appendToViews columnID views1 charts
      | .error e => .error e

/-- `r.AddColumn(column, charts...)`: the report afterwards, or the panic
that ends the call. -/
def Report.AddColumn {Time Column : Type} (r : Report Time Column) (column : Column)
    (charts : List Int) : Except RuntimeError (Report Time Column) :=
  let r1 := { r with Columns := r.Columns ++ [column] }
  let columnID : Int := r1.Columns.length
  let charts1 := if charts.length = 0 then charts ++ [0] else charts
  match Report.appendToViews columnID r1.Views charts1 with
  | .ok views => .ok { r1 with Views := views }
  | .error e => .error e

/-- A call a client makes on a report. -/
inductive Report.Call (Column : Type) where
  | addChart
  | addColumn (column : Column) (charts : List Int)
deriving DecidableEq, Repr

/-- Whether a call is a call of `AddChart`. -/
def Report.Call.isAddChart {Column : Type} : Report.Call Column → Bool
  | .addChart => true
  | .addColumn _ _ => false

/-- A client making the calls `calls` on `r`, one after the other, until the
calls are done or `AddColumn` panics.  The first component lists, for every
call of `AddChart` made, in order, the identifier it returned and the report
right after it; the second is the final report, or the panic that ended the
client. -/
def Report.run {Time Column : Type} :
    Report Time Column → List (Report.Call Column) →
      List (Int × Report Time Column) × Except RuntimeError (Report Time Column)
  | r, [] => ([], .ok r)
  | r, .addChart :: calls =>
      ((r.AddChart.2, r.AddChart.1) :: (Report.run r.AddChart.1 calls).1,
        (Report.run r.AddChart.1 calls).2)
  | r, .addColumn column charts :: calls =>
      match r.AddColumn column charts with
      | .ok r1 => Report.run r1 calls
      | .error e => ([], .error e)

/-- Whether the calls `calls`, made on `r` by a client that has got the
identifiers `known` from `AddChart` so far, pass to `AddColumn` only chart
identifiers that are `0` or were returned by an earlier `AddChart`.  Calls
after a panic are not made and not looked at. -/
def Report.admissible {Time Column : Type} :
    Report Time Column → List Int → List (Report.Call Column) → Bool
  | _, _, [] => true
  | r, known, .addChart :: calls =>
      Report.admissible r.AddChart.1 (r.AddChart.2 :: known) calls
  | r, known, .addColumn column charts :: calls =>
      charts.all (fun c => c == 0 || known.contains c) &&
        match r.AddColumn column charts with
        | .ok r1 => Report.admissible r1 known calls
        | .error _ => true

/-- The shape every report built through `NewReport`, `AddChart` and
`AddColumn` is meant to have: there is a chart, every entry of every chart
is the identifier of a column, and every column is in some chart. -/
def Report.WellFormed {Time Column : Type} (r : Report Time Column) : Prop :=
  r.Views ≠ [] ∧
  (∀ chart ∈ r.Views, ∀ c ∈ chart, 1 ≤ c ∧ c ≤ (r.Columns.length : Int)) ∧
  (∀ k : Nat, 1 ≤ k → k ≤ r.Columns.length → ∃ chart ∈ r.Views, (k : Int) ∈ chart)

/-! ## report.go, with the storage of the charts

`Report` above takes a chart for the list of its entries.  That describes a
report whose charts share no storage, as every report built through
`NewReport`, `AddChart` and `AddColumn` is.  `Views` is an exported field,
though, and a caller may fill it with slices of one backing array; `append`
then writes into storage another chart shows.  The definitions of this
section keep the slice headers and the backing arrays apart, so that such a
report can be written down. -/

namespace Mem

/-- The backing arrays of the `[]int` slices, in the order of allocation; a
backing array is known by its place in this list. -/
abbrev Heap := List (List Int)

/-- The backing array number `a` (empty when there is none). -/
def Heap.array (h : Heap) (a : Nat) : List Int := h[a]?.getD []

/-- A slice value of type `[]int`: its backing array, the offset of its first
element in it, its length and its capacity. -/
structure Slice where
  arr : Nat
  off : Nat
  len : Nat
  cap : Nat
deriving DecidableEq, Repr

/-- The elements of a slice, `s[0], ..., s[len(s)-1]`. -/
def Slice.elems (h : Heap) (s : Slice) : List Int :=
  ((Heap.array h s.arr).drop s.off).take s.len

/-- What Go guarantees of every slice value: `len(s) <= cap(s)`, and the
capacity lies within the backing array. -/
def Slice.Valid (h : Heap) (s : Slice) : Prop :=
  s.len ≤ s.cap ∧ s.off + s.cap ≤ (Heap.array h s.arr).length

instance Slice.decidableValid (h : Heap) (s : Slice) : Decidable (Slice.Valid h s) :=
  inferInstanceAs (Decidable (_ ∧ _))

/-- Two slices share no storage: they lie in different backing arrays, or in
ranges of one array that do not overlap (capacity included). -/
def Slice.Disjoint (s t : Slice) : Prop :=
  s.arr ≠ t.arr ∨ s.off + s.cap ≤ t.off ∨ t.off + t.cap ≤ s.off

instance Slice.decidableDisjoint (s t : Slice) : Decidable (Slice.Disjoint s t) :=
  inferInstanceAs (Decidable (_ ∨ _))

/-- The built-in `append(s, v)`: the memory afterwards and the slice
returned.  With spare capacity the value is written into the backing array
of `s`, right after its last element; without, the elements are copied into
a new backing array, whose capacity the runtime chooses (`grow`, given the
length needed; at least that length). -/
def Slice.append (grow : Nat → Nat) (h : Heap) (s : Slice) (v : Int) : Heap × Slice :=
  if s.len < s.cap then
    (h.set s.arr ((Heap.array h s.arr).set (s.off + s.len) v), { s with len := s.len + 1 })
  else
    (h ++ [s.elems h ++ v :: List.replicate (max (s.len + 1) (grow (s.len + 1)) - (s.len + 1)) 0],
      { arr := h.length, off := 0, len := s.len + 1,
        cap := max (s.len + 1) (grow (s.len + 1)) })

/-- The struct `Report`, its charts kept as slice values. -/
structure Report (Time Column : Type) where
  Title : String
  Date : RecvChan Time
  Columns : List Column
  Views : List Slice
  DateFormat : String
  GeneratedOn : String
deriving DecidableEq, Repr

/-- The report as a reader of its fields sees it: every chart with its
elements. -/
def Report.read {Time Column : Type} (h : Heap) (r : Report Time Column) :
    helper.Report Time Column :=
  { Title := r.Title
    Date := r.Date
    Columns := r.Columns
    Views := r.Views.map (Slice.elems h)
    DateFormat := r.DateFormat
    GeneratedOn := r.GeneratedOn }

/-- The statement `r.Views[chartID] = append(r.Views[chartID], columnID)`: it
panics unless `0 <= chartID < len(views)`. -/
def Report.appendToView (grow : Nat → Nat) (h : Heap) (views : List Slice)
    (chartID columnID : Int) : Except RuntimeError (Heap × List Slice) :=
  if hc : 0 ≤ chartID ∧ chartID.toNat < views.length then
    .ok ((Slice.append grow h views[chartID.toNat] columnID).1,
      views.set chartID.toNat (Slice.append grow h views[chartID.toNat] columnID).2)
  else
    .error (.indexOutOfRange chartID views.length)

/-- The loop `for _, chartID := range charts` of `AddColumn`. -/
def Report.appendToViews (grow : Nat → Nat) (columnID : Int) :
    Heap → List Slice → List Int → Except RuntimeError (Heap × List Slice)
  | h, views, [] => .ok (h, views)
  | h, views, chartID :: charts =>
      match Report.appendToView grow h views chartID columnID with
      | .ok (h1, views1) => Report.appendToViews grow columnID h1 views1 charts
      | .error e => .error e

/-- `r.AddColumn(column, charts...)`: the memory and the report afterwards,
or the panic that ends the call. -/
def Report.AddColumn {Time Column : Type} (grow : Nat → Nat) (h : Heap)
    (r : Report Time Column) (column : Column) (charts : List Int) :
    Except RuntimeError (Heap × Report Time Column) :=
  let r1 := { r with Columns := r.Columns ++ [column] }
  let columnID : Int := r1.Columns.length
  let charts1 := if charts.length = 0 then charts ++ [0] else charts
  match Report.appendToViews grow columnID h r1.Views charts1 with
  | .ok (h1, views) => .ok (h1, { r1 with Views := views })
  | .error e => .error e

/-- The charts `views` are valid slices no two of which share storage. -/
def Apart (h : Heap) (views : List Slice) : Prop :=
  (∀ s ∈ views, s.Valid h) ∧ views.Pairwise Slice.Disjoint

instance Apart.decidable (h : Heap) (views : List Slice) : Decidable (Apart h views) :=
  inferInstanceAs (Decidable (_ ∧ _))

/-- The same as `Apart`, said of the places of the charts in `views`. -/
def ApartAt (h : Heap) (views : List Slice) : Prop :=
  (∀ (i : Nat) (s : Slice), views[i]? = some s → s.Valid h) ∧
  (∀ (i j : Nat) (s t : Slice), i ≠ j → views[i]? = some s → views[j]? = some t →
    s.Disjoint t)

/-- A report with two columns whose two charts are `base[0:1]` and
`base[1:2]` of one array `base = []int{1, 2}`. -/
def Report.aliased : Report Nat String :=
  { Title := "t", Date := [], Columns := ["a", "b"],
    Views := [{ arr := 0, off := 0, len := 1, cap := 2 }, { arr := 0, off := 1, len := 1, cap := 1 }],
    DateFormat := "f", GeneratedOn := "g" }

/-- A report with two columns whose two charts lie in two arrays, the first
with spare capacity, the second without. -/
def Report.apart : Report Nat String :=
  { Title := "t", Date := [], Columns := ["a", "b"],
    Views := [{ arr := 0, off := 0, len := 1, cap := 2 }, { arr := 1, off := 0, len := 1, cap := 1 }],
    DateFormat := "f", GeneratedOn := "g" }

end Mem

/-! ## annotation_report_column.go -/

/-- The struct `annotationReportColumn`. -/
structure annotationReportColumn where
  values : RecvChan String
deriving DecidableEq, Repr

/-- The call `fmt.Sprintf("%q", value)` on a string: a double quote, the
escaped runes of `value`, a double quote (`strconv.Quote`).  `escape` stands
for the escaping of the runes, which belongs to the Go library. -/
def fmt.Sprintf_q (escape : String → String) (value : String) : String :=
  "\"" ++ escape value ++ "\""

/-- The value the receive `<-c.values` yields: the next value, or the zero
value `""` of a closed, exhausted channel. -/
def annotationReportColumn.next (c : annotationReportColumn) : String :=
  (recv c.values).1.getD ""

/-- `c.Value()`: the returned text and the column afterwards. -/
def annotationReportColumn.Value (escape : String → String) (c : annotationReportColumn) :
    String × annotationReportColumn :=
  let value := c.next
  let c1 : annotationReportColumn := { values := (recv c.values).2 }
  if value ≠ "" then (fmt.Sprintf_q escape value, c1) else ("null", c1)

/-! ## The workers, one step at a time

The output channels are unbuffered: a send completes only in the step in
which the consumer receives the value.  A step of a worker that stands at
its send is that hand-over; a consumer that is not ready delays the step and
adds no state of its own. -/

/-- The end of the output channel of `Apply(c, f)` that a consumer, such as
the worker of a second `Apply`, receives from: the values sent, and then the
close. -/
def SendChan.recvEnd {T : Type} (ch : SendChan T) : RecvChan T := ch.sent

/-- Where the worker of `Apply` stands. -/
inductive Apply.PC (T : Type) where
  /-- At `for n := range c`, about to receive from `c`. -/
  | recv
  /-- At `ac <- f(n)`: `f(n)` is computed and not yet handed over. -/
  | send (v : T)
  /-- Returned: the loop has ended and the deferred `close(ac)` has run. -/
  | done
deriving DecidableEq, Repr

/-- The worker of `Apply` with its channels: the input `c` still unread, the
place in the code, the values taken from `c` so far, the values the consumer
has received from `ac` so far, and whether `ac` is closed. -/
structure Apply.Machine (T : Type) where
  c : RecvChan T
  pc : Apply.PC T
  taken : List T
  received : List T
  closed : Bool
deriving DecidableEq, Repr

/-- The worker of `Apply` as `go func()` starts it on input `c`. -/
def Apply.start {T : Type} (c : RecvChan T) : Apply.Machine T :=
  { c := c, pc := .recv, taken := [], received := [], closed := false }

/-- One step of the worker of `Apply`; `none` when it has returned. -/
def Apply.step {T : Type} (f : T → T) (s : Apply.Machine T) : Option (Apply.Machine T) :=
  match s.pc with
  | .recv =>
      match s.c with
      | [] => some { s with pc := .done, closed := true }
      | n :: c => some { s with c := c, taken := s.taken ++ [n], pc := .send (f n) }
  | .send v => some { s with received := s.received ++ [v], pc := .recv }
  | .done => none

/-- The state after one step, or the same state when the worker has
returned. -/
def Apply.next {T : Type} (f : T → T) (s : Apply.Machine T) : Apply.Machine T :=
  (Apply.step f s).getD s

/-- The state after `n` steps. -/
def Apply.exec {T : Type} (f : T → T) (n : Nat) (s : Apply.Machine T) : Apply.Machine T :=
  (Apply.next f)^[n] s

/-- Modelled from the spec: one turn of the loop of `Drain`, whose source is
not among the files at hand.  Section 4.1: "block-read and discard every value
until end-of-stream, then return".  The result is the channel after a value
was read and discarded, or `none` at end-of-stream, when `Drain` returns. -/
def Drain.step {T : Type} : RecvChan T → Option (RecvChan T)
  | [] => none
  | _ :: c => some c

/-- Where the worker of `Operate` stands. -/
inductive Operate.PC (A R : Type) where
  /-- At `an, ok := <-ac`. -/
  | recvA
  /-- At `bn, ok := <-bc`, holding `an`. -/
  | recvB (an : A)
  /-- At `oc <- o(an, bn)`: the result is computed and not yet handed over. -/
  | send (r : R)
  /-- In `Drain(bc)`, after `ac` was found ended. -/
  | drainB
  /-- In `Drain(ac)`, after `bc` was found ended. -/
  | drainA
  /-- Returned: the loop was left and the deferred `close(oc)` has run. -/
  | done
deriving DecidableEq, Repr

/-- Whether the worker of `Operate` has found one of its inputs ended. -/
def Operate.PC.observedEnd {A R : Type} : Operate.PC A R → Bool
  | .drainB => true
  | .drainA => true
  | .done => true
  | _ => false

/-- The worker of `Operate` with its channels: the inputs still unread, the
place in the code, the values the consumer has received from `oc` so far, and
whether `oc` is closed. -/
structure Operate.Machine (A B R : Type) where
  ac : RecvChan A
  bc : RecvChan B
  pc : Operate.PC A R
  received : List R
  closed : Bool
deriving DecidableEq, Repr

/-- The worker of `Operate` as `go func()` starts it on inputs `ac`, `bc`. -/
def Operate.start {A B R : Type} (ac : RecvChan A) (bc : RecvChan B) : Operate.Machine A B R :=
  { ac := ac, bc := bc, pc := .recvA, received := [], closed := false }

/-- One step of the worker of `Operate`; `none` when it has returned. -/
def Operate.step {A B R : Type} (o : A → B → R) (s : Operate.Machine A B R) :
    Option (Operate.Machine A B R) :=
  match s.pc with
  | .recvA =>
      match s.ac with
      | [] => some { s with pc := .drainB }
      | an :: ac => some { s with ac := ac, pc := .recvB an }
  | .recvB an =>
      match s.bc with
      | [] => some { s with pc := .drainA }
      | bn :: bc => some { s with bc := bc, pc := .send (o an bn) }
  | .send r => some { s with received := s.received ++ [r], pc := .recvA }
  | .drainB =>
      match Drain.step s.bc with
      | some bc => some { s with bc := bc }
      | none => some { s with pc := .done, closed := true }
  | .drainA =>
      match Drain.step s.ac with
      | some ac => some { s with ac := ac }
      | none => some { s with pc := .done, closed := true }
  | .done => none

/-- The state after one step, or the same state when the worker has
returned. -/
def Operate.next {A B R : Type} (o : A → B → R) (s : Operate.Machine A B R) :
    Operate.Machine A B R :=
  (Operate.step o s).getD s

/-- The state after `n` steps. -/
def Operate.exec {A B R : Type} (o : A → B → R) (n : Nat) (s : Operate.Machine A B R) :
    Operate.Machine A B R :=
  (Operate.next o)^[n] s

/-! ## Properties of the stream operators -/

theorem SendChan.send_sent {T : Type} (ch : SendChan T) (v : T) :
    (ch.send v).sent = ch.sent ++ [v] := rfl

theorem SendChan.send_closed {T : Type} (ch : SendChan T) (v : T) :
    (ch.send v).closed = ch.closed := rfl

/-- The loop of `Apply` appends the image of its input to what was sent
before, leaves the closed flag alone and exhausts its input. -/
theorem Apply.applyLoop_eq {T : Type} (f : T → T) (c : RecvChan T) (ac : SendChan T) :
    Apply.loop f c ac =
      { c := [], ac := { sent := ac.sent ++ c.map f, closed := ac.closed } } := by
  induction c generalizing ac with
  | nil => simp [Apply.loop]
  | cons n c ih => simp [Apply.loop, ih, SendChan.send]

theorem Apply_eq {T : Type} (f : T → T) (c : RecvChan T) :
    Apply c f = { sent := c.map f, closed := true } := by
  simp [Apply, Apply.worker, Apply.applyLoop_eq, make, SendChan.close]

/-- `Drain` discards every value and leaves the channel exhausted. -/
theorem Drain_eq {T : Type} (c : RecvChan T) : Drain c = (c, []) := by
  induction c with
  | nil => rfl
  | cons v c ih => simp [Drain, ih]

theorem Operate.lastEvents_cons_cons {A B R : Type} (x : A) (a : List A) (y : B) (b : List B) :
    (Operate.lastEvents (x :: a) (y :: b) : List (Event A B R)) = Operate.lastEvents a b := by
  simp [Operate.lastEvents]

/-- The loop of `Operate`: it exhausts both inputs, sends the pairwise
results after what was sent before, and records the complete iterations
followed by the last, incomplete one. -/
theorem Operate.operateLoop_eq {A B R : Type} (o : A → B → R) (a : RecvChan A) (b : RecvChan B)
    (oc : SendChan R) (log : List (Event A B R)) :
    Operate.loop o a b oc log =
      { ac := [], bc := [],
        oc := { sent := oc.sent ++ List.zipWith o a b, closed := oc.closed },
        log := log ++ (List.zip a b).flatMap (Operate.pairEvents o) ++ Operate.lastEvents a b } := by
  induction a generalizing b oc log with
  | nil => simp [Operate.loop, Drain_eq, Operate.lastEvents]
  | cons x a ih =>
    cases b with
    | nil => simp [Operate.loop, Drain_eq, Operate.lastEvents]
    | cons y b =>
      simp [Operate.loop, ih, Operate.lastEvents_cons_cons, SendChan.send, List.append_assoc]

theorem Operate.worker_eq {A B R : Type} (o : A → B → R) (a : RecvChan A) (b : RecvChan B) :
    Operate.worker a b o =
      { ac := [], bc := [],
        oc := { sent := List.zipWith o a b, closed := true },
        log := (List.zip a b).flatMap (Operate.pairEvents o) ++ Operate.lastEvents a b
                 ++ [.close] } := by
  simp [Operate.worker, Operate.operateLoop_eq, make, SendChan.close]

theorem Event.filterMap_drainA {A B R : Type} (l : List A) :
    (l.map (Event.drainA : A → Event A B R)).filterMap Event.readA? = l ∧
    (l.map (Event.drainA : A → Event A B R)).filterMap Event.readB? = [] ∧
    (l.map (Event.drainA : A → Event A B R)).filterMap Event.call? = [] := by
  induction l with
  | nil => simp
  | cons v l ih => simp [Event.readA?, Event.readB?, Event.call?, ih]

theorem Event.filterMap_drainB {A B R : Type} (l : List B) :
    (l.map (Event.drainB : B → Event A B R)).filterMap Event.readB? = l ∧
    (l.map (Event.drainB : B → Event A B R)).filterMap Event.readA? = [] ∧
    (l.map (Event.drainB : B → Event A B R)).filterMap Event.call? = [] := by
  induction l with
  | nil => simp
  | cons v l ih => simp [Event.readA?, Event.readB?, Event.call?, ih]

/-- Every value of `a` is read once, in order, over the complete iterations
and the last one. -/
theorem Operate.readsA {A B R : Type} (o : A → B → R) (a : List A) (b : List B) :
    ((List.zip a b).flatMap (Operate.pairEvents o) ++ Operate.lastEvents a b).filterMap
      Event.readA? = a := by
  induction a generalizing b with
  | nil =>
    simp [Operate.lastEvents, Event.readA?, Event.filterMap_drainB, -List.filterMap_map]
  | cons x a ih =>
    cases b with
    | nil =>
      simp [Operate.lastEvents, Event.readA?, Event.filterMap_drainA, -List.filterMap_map]
    | cons y b =>
      have h := ih b
      simp only [List.filterMap_append] at h
      simp [Operate.lastEvents_cons_cons, Operate.pairEvents, Event.readA?, h]

/-- Every value of `b` is read once, in order, over the complete iterations
and the last one. -/
theorem Operate.readsB {A B R : Type} (o : A → B → R) (a : List A) (b : List B) :
    ((List.zip a b).flatMap (Operate.pairEvents o) ++ Operate.lastEvents a b).filterMap
      Event.readB? = b := by
  induction a generalizing b with
  | nil =>
    simp [Operate.lastEvents, Event.readB?, Event.filterMap_drainB, -List.filterMap_map]
  | cons x a ih =>
    cases b with
    | nil =>
      simp [Operate.lastEvents, Event.readB?, Event.filterMap_drainA, -List.filterMap_map]
    | cons y b =>
      have h := ih b
      simp only [List.filterMap_append] at h
      simp [Operate.lastEvents_cons_cons, Operate.pairEvents, Event.readB?, h]

/-- The function `o` is called on the pairs of the complete iterations and on
nothing else. -/
theorem Operate.calls {A B R : Type} (o : A → B → R) (a : List A) (b : List B) :
    ((List.zip a b).flatMap (Operate.pairEvents o) ++ Operate.lastEvents a b).filterMap
      Event.call? = List.zip a b := by
  induction a generalizing b with
  | nil =>
    simp [Operate.lastEvents, Event.call?, Event.filterMap_drainB, -List.filterMap_map]
  | cons x a ih =>
    cases b with
    | nil =>
      simp [Operate.lastEvents, Event.call?, Event.filterMap_drainA, -List.filterMap_map]
    | cons y b =>
      have h := ih b
      simp only [List.filterMap_append] at h
      simp [Operate.lastEvents_cons_cons, Operate.pairEvents, Event.call?, h]

theorem zipWith_take_min {A B R : Type} (o : A → B → R) (a : List A) (b : List B) :
    List.zipWith o (a.take (min a.length b.length)) (b.take (min a.length b.length)) =
      List.zipWith o a b := by
  induction a generalizing b with
  | nil => simp
  | cons x a ih =>
    cases b with
    | nil => simp
    | cons y b => simpa [Nat.succ_min_succ] using ih b

/-- C1: for every finite, closed input and every function `f`, the stream
`Apply(input, f)` returns is the elementwise image of the input: it carries
exactly `len(input)` values, its `i`-th value is `f(input[i])`, in the same
order, it is closed once the input has ended, and an empty input yields a
closed, empty output. -/
theorem Apply_elementwise {T : Type} (input : RecvChan T) (f : T → T) :
    (Apply input f).sent = input.map f ∧
    (Apply input f).sent.length = input.length ∧
    (∀ i : Nat, (Apply input f).sent[i]? = input[i]?.map f) ∧
    (Apply input f).closed = true ∧
    Apply ([] : RecvChan T) f = { sent := [], closed := true } := by
  simp [Apply_eq]

/-- C2: for finite streams `a` of length `m` and `b` of length `n` and every
function `o`, `Operate(a, b, o)` emits exactly `min(m, n)` values, the `i`-th
being `o(a[i], b[i])` (so there is one exactly when both `a[i]` and `b[i]`
exist); with addition, `[1,2,3]` and `[10,20,30]` give `[11,22,33]`, and
`[1,2,3,4]` and `[10,20]` give `[11,22]`. -/
theorem Operate_pairwise {A B R : Type} (a : RecvChan A) (b : RecvChan B) (o : A → B → R) :
    (Operate a b o).sent.length = min a.length b.length ∧
    (∀ i : Nat, (Operate a b o).sent[i]? = Option.map₂ o a[i]? b[i]?) ∧
    (Operate a b o).sent = List.zipWith o a b ∧
    (Operate [1, 2, 3] [10, 20, 30] (fun x y : Int => x + y)).sent = [11, 22, 33] ∧
    (Operate [1, 2, 3, 4] [10, 20] (fun x y : Int => x + y)).sent = [11, 22] := by
  have h : ∀ (A B R : Type) (a : RecvChan A) (b : RecvChan B) (o : A → B → R),
      (Operate a b o).sent = List.zipWith o a b := by
    intro A B R a b o
    simp [Operate, Operate.worker_eq]
  refine ⟨by simp [h], ?_, h A B R a b o, by simp [h], by simp [h]⟩
  intro i
  rw [h, List.getElem?_zipWith]
  cases a[i]? <;> cases b[i]? <;> rfl

/-- C3: whichever of the finite streams `a` and `b` is shorter, when the
worker of `Operate` has terminated no unread value remains in either input,
every value of `a` and of `b` has been read exactly once in order, `o` has
been called on the first `min(len a, len b)` pairs only, and the output is
the one the two inputs cut to that length give. -/
theorem Operate_consumes_both {A B R : Type} (a : RecvChan A) (b : RecvChan B)
    (o : A → B → R) :
    (Operate.worker a b o).ac = [] ∧
    (Operate.worker a b o).bc = [] ∧
    (Operate.worker a b o).log.filterMap Event.readA? = a ∧
    (Operate.worker a b o).log.filterMap Event.readB? = b ∧
    (Operate.worker a b o).log.filterMap Event.call? =
      List.zip (a.take (min a.length b.length)) (b.take (min a.length b.length)) ∧
    (Operate.worker a b o).oc =
      Operate (a.take (min a.length b.length)) (b.take (min a.length b.length)) o := by
  have hA := Operate.readsA o a b
  have hB := Operate.readsB o a b
  have hC := Operate.calls o a b
  simp only [List.filterMap_append] at hA hB hC
  refine ⟨by simp [Operate.worker_eq], by simp [Operate.worker_eq], ?_, ?_, ?_, ?_⟩
  · simp [Operate.worker_eq, hA, Event.readA?]
  · simp [Operate.worker_eq, hB, Event.readB?]
  · simp only [Operate.worker_eq, List.filterMap_append, hC]
    simp [Event.call?, List.zip, zipWith_take_min]
  · simp [Operate, Operate.worker_eq, zipWith_take_min]

/-- The record of the steps, with `m = len a` and `n = len b`.  When `m > n` the worker of
`Operate` runs `n` complete iterations on the pairs `(a[i], b[i])`, then reads
`a[n]` and in that same iteration finds `b` ended, after which `Drain`
consumes `a[n+1..]` and the output is closed: `a[n]` is neither sent nor
passed to `o`.  When `m <= n` it runs `m` complete iterations, finds `a`
ended before reading anything more from `b`, and `Drain` consumes
`b[m..]`. -/
theorem Operate.worker_log {A B R : Type} (a : RecvChan A) (b : RecvChan B)
    (o : A → B → R) :
    (∀ h : b.length < a.length,
      (Operate.worker a b o).log =
        (List.zip (a.take b.length) b).flatMap (Operate.pairEvents o)
          ++ [.recvA a[b.length], .endB]
          ++ (a.drop (b.length + 1)).map .drainA
          ++ [.close]) ∧
    (a.length ≤ b.length →
      (Operate.worker a b o).log =
        (List.zip a (b.take a.length)).flatMap (Operate.pairEvents o)
          ++ [.endA]
          ++ (b.drop a.length).map .drainB
          ++ [.close]) := by
  have hz := List.zip_eq_zip_take_min a b
  constructor
  · intro h
    have hd : a.drop b.length = a[b.length] :: a.drop (b.length + 1) :=
      List.drop_eq_getElem_cons h
    have hm : min a.length b.length = b.length := by omega
    rw [hm, List.take_length] at hz
    have hl : (Operate.lastEvents a b : List (Event A B R)) =
        .recvA a[b.length] :: .endB :: (a.drop (b.length + 1)).map .drainA := by
      unfold Operate.lastEvents
      rw [hd]
    rw [Operate.worker_eq, hl, ← hz]
    simp
  · intro h
    have hd : a.drop b.length = [] := List.drop_eq_nil_of_le h
    have hm : min a.length b.length = a.length := by omega
    rw [hm, List.take_length] at hz
    have hl : (Operate.lastEvents a b : List (Event A B R)) =
        .endA :: (b.drop a.length).map .drainB := by
      unfold Operate.lastEvents
      rw [hd]
    rw [Operate.worker_eq, hl, ← hz]
    simp

/-! ## Properties of `Abs` -/

/-- A magnitude below `2 ^ 53` fits the significand: nothing is rounded. -/
theorem float64.roundNat_of_lt (m : Nat) (h : m < 2 ^ 53) : float64.roundNat m = m := by
  have he : float64.excessBits 64 m = 0 := by
    unfold float64.excessBits
    rw [if_pos h]
  simp [float64.roundNat, he, Nat.mod_one]

/-- The conversion `float64(n)` is exact for `|n| < 2 ^ 53`. -/
theorem float64.ofInt_of_lt (n : Int) (h : n.natAbs < 2 ^ 53) : float64.ofInt n = n := by
  unfold float64.ofInt
  rw [float64.roundNat_of_lt _ h]
  split <;> omega

/-- On a value strictly between the bounds of a signed type of at most 54
bits, the function literal of `Abs` yields the absolute value. -/
theorem Abs.fn_of_lt (w : Nat) (hw : w ≤ 54) (impl : Int → Int) (x : Int)
    (hlo : -(2 : Int) ^ (w - 1) < x) (hhi : x < (2 : Int) ^ (w - 1)) :
    float64.ofInt x = x ∧ Abs.fn w impl x = |x| := by
  have hp : (2 : Int) ^ (w - 1) ≤ 2 ^ 53 :=
    pow_le_pow_right₀ (by norm_num) (by omega)
  have hx : x.natAbs < 2 ^ 53 := by
    have h1 : ((x.natAbs : Nat) : Int) < ((2 ^ 53 : Nat) : Int) := by
      rw [Int.natCast_natAbs]
      push_cast
      exact lt_of_lt_of_le (abs_lt.mpr ⟨hlo, hhi⟩) hp
    exact_mod_cast h1
  have hf := float64.ofInt_of_lt x hx
  refine ⟨hf, ?_⟩
  have habs : |x| < (2 : Int) ^ (w - 1) := abs_lt.mpr ⟨hlo, hhi⟩
  have hnn : (0 : Int) ≤ |x| := abs_nonneg x
  have hpos : (0 : Int) < (2 : Int) ^ (w - 1) := by positivity
  unfold Abs.fn intOfFloat64 math.Abs
  rw [hf, if_pos ⟨by omega, habs⟩]

/-- C4: for `T` one of `int8`, `int16`, `int32` (`w` bits) and every finite
input of values of `T` none of which is the minimum of `T`, `Abs(input)` has
the length of the input and its `i`-th value is `|input[i]|`; the conversion
to `float64` and back changes no value; `[-10, 20, -4, -5]` gives
`[10, 20, 4, 5]`. -/
theorem Abs_small_int (w : Nat) (hw : w = 8 ∨ w = 16 ∨ w = 32) (impl : Int → Int)
    (input : RecvChan Int)
    (htype : ∀ x ∈ input, -(2 : Int) ^ (w - 1) ≤ x ∧ x < (2 : Int) ^ (w - 1))
    (hmin : ∀ x ∈ input, x ≠ -(2 : Int) ^ (w - 1)) :
    (Abs w impl input).sent.length = input.length ∧
    (∀ i : Nat, (Abs w impl input).sent[i]? = input[i]?.map (fun x => |x|)) ∧
    (∀ x ∈ input, float64.ofInt x = x ∧
      intOfFloat64 w impl (math.Abs (float64.ofInt x)) = |x|) ∧
    (Abs w impl [-10, 20, -4, -5]).sent = [10, 20, 4, 5] := by
  have hw54 : w ≤ 54 := by omega
  have hel : ∀ x ∈ input, float64.ofInt x = x ∧ Abs.fn w impl x = |x| := by
    intro x hx
    have h1 := htype x hx
    have h2 := hmin x hx
    exact Abs.fn_of_lt w hw54 impl x (lt_of_le_of_ne h1.1 (Ne.symm h2)) h1.2
  have hmap : input.map (Abs.fn w impl) = input.map (fun x => |x|) :=
    List.map_congr_left (fun x hx => (hel x hx).2)
  have hex : ∀ x : Int, -128 < x → x < 128 → Abs.fn w impl x = |x| := by
    intro x h1 h2
    have hp : (2 : Int) ^ (8 - 1) ≤ (2 : Int) ^ (w - 1) :=
      pow_le_pow_right₀ (by norm_num) (by omega)
    norm_num at hp
    exact (Abs.fn_of_lt w hw54 impl x (by omega) (by omega)).2
  refine ⟨by simp [Abs, Apply_eq], ?_, ?_, ?_⟩
  · intro i
    simp [Abs, Apply_eq, hmap]
  · intro x hx
    exact ⟨(hel x hx).1, (hel x hx).2⟩
  · simp only [Abs, Apply_eq, List.map, hex (-10) (by norm_num) (by norm_num),
      hex 20 (by norm_num) (by norm_num), hex (-4) (by norm_num) (by norm_num),
      hex (-5) (by norm_num) (by norm_num)]
    norm_num

/-- C4 at `int8`, on an input that reaches both `127` and `-127`. -/
theorem Abs_small_int_witness :
    (Abs 8 (fun _ => 0) [-10, 20, -4, -5, 127, -127]).sent.length = 6 ∧
    (Abs 8 (fun _ => 0) [-10, 20, -4, -5, 127, -127]).sent[5]? = some 127 := by
  have h := Abs_small_int 8 (by decide) (fun _ => 0) [-10, 20, -4, -5, 127, -127]
    (by decide) (by decide)
  exact ⟨h.1, by rw [h.2.1 5]; decide⟩

/-- C5: on `int64` the value `9007199254740993 = 2 ^ 53 + 1`, which is not the
minimum of `int64`, comes out of `Abs` as `9007199254740992`, whatever the
platform does with values out of range: not its absolute value. -/
theorem Abs_int64_rounds (impl : Int → Int) :
    (Abs 64 impl [9007199254740993]).sent = [9007199254740992] ∧
    (9007199254740993 : Int) ≠ -(2 : Int) ^ (64 - 1) ∧
    (-(2 : Int) ^ (64 - 1) ≤ 9007199254740993 ∧ (9007199254740993 : Int) < 2 ^ (64 - 1)) ∧
    |(9007199254740993 : Int)| ≠ 9007199254740992 := by
  have hf : float64.ofInt 9007199254740993 = 9007199254740992 := by decide
  refine ⟨?_, by norm_num, by norm_num, by norm_num⟩
  simp only [Abs, Apply_eq, List.map, Abs.fn, hf, math.Abs, intOfFloat64]
  norm_num

/-! ## Properties of the report builder -/

theorem Report.appendToView_ok (views : List (List Int)) (chartID columnID : Int)
    (h0 : 0 ≤ chartID) (h1 : chartID < views.length) :
    ∃ h : chartID.toNat < views.length,
      Report.appendToView views chartID columnID =
        .ok (views.set chartID.toNat (views[chartID.toNat] ++ [columnID])) := by
  have h : chartID.toNat < views.length := by omega
  refine ⟨h, ?_⟩
  unfold Report.appendToView
  rw [dif_pos ⟨h0, h⟩]

theorem Report.appendToView_error (views : List (List Int)) (chartID columnID : Int)
    (h : chartID < 0 ∨ (views.length : Int) ≤ chartID) :
    Report.appendToView views chartID columnID =
      .error (.indexOutOfRange chartID views.length) := by
  unfold Report.appendToView
  rw [dif_neg]
  omega

/-- With every identifier in range the loop of `AddColumn` ends normally,
keeps the number of charts, and extends chart `i` by one copy of the column
identifier for every occurrence of `i` among the identifiers. -/
theorem Report.appendToViews_ok (columnID : Int) (charts : List Int) (views : List (List Int))
    (h : ∀ c ∈ charts, 0 ≤ c ∧ c < (views.length : Int)) :
    ∃ views1, Report.appendToViews columnID views charts = .ok views1 ∧
      views1.length = views.length ∧
      ∀ i : Nat, views1[i]? =
        views[i]?.map (fun v => v ++ List.replicate (charts.count (i : Int)) columnID) := by
  induction charts generalizing views with
  | nil => exact ⟨views, rfl, rfl, fun i => by cases views[i]? <;> simp⟩
  | cons c charts ih =>
    have hc := h c (List.mem_cons_self _ _)
    obtain ⟨hk, hview⟩ := Report.appendToView_ok views c columnID hc.1 hc.2
    have hlen : (views.set c.toNat (views[c.toNat] ++ [columnID])).length = views.length :=
      List.length_set _ _ _
    obtain ⟨views1, hrun, hl1, hget⟩ := ih (views.set c.toNat (views[c.toNat] ++ [columnID]))
      (fun d hd => by rw [hlen]; exact h d (List.mem_cons_of_mem _ hd))
    refine ⟨views1, ?_, by rw [hl1, hlen], ?_⟩
    · simp only [Report.appendToViews, hview, hrun]
    · intro i
      rw [hget i, List.getElem?_set, List.count_cons]
      by_cases hi : c.toNat = i
      · subst hi
        have hci : ((c.toNat : Nat) : Int) = c := Int.toNat_of_nonneg hc.1
        simp [hk, hci, List.replicate_succ]
      · have hci : ¬ (c = (i : Int)) := by
          intro hc2
          apply hi
          rw [hc2]
          exact Int.toNat_natCast i
        simp [hi, hci]

/-- With some identifier out of range the loop of `AddColumn` panics, at the
first such identifier. -/
theorem Report.appendToViews_error (columnID : Int) (charts : List Int)
    (views : List (List Int))
    (h : ∃ c ∈ charts, c < 0 ∨ (views.length : Int) ≤ c) :
    ∃ c ∈ charts, (c < 0 ∨ (views.length : Int) ≤ c) ∧
      Report.appendToViews columnID views charts =
        .error (.indexOutOfRange c views.length) := by
  induction charts generalizing views with
  | nil => simp at h
  | cons c charts ih =>
    by_cases hc : c < 0 ∨ (views.length : Int) ≤ c
    · refine ⟨c, List.mem_cons_self _ _, hc, ?_⟩
      simp only [Report.appendToViews, Report.appendToView_error views c columnID hc]
    · have hc0 : 0 ≤ c := by omega
      have hc1 : c < (views.length : Int) := by omega
      obtain ⟨_, hview⟩ := Report.appendToView_ok views c columnID hc0 hc1
      have hlen : (views.set c.toNat (views[c.toNat] ++ [columnID])).length = views.length :=
        List.length_set _ _ _
      obtain ⟨d, hd, hbad⟩ := h
      have hdc : d ∈ charts := by
        rcases List.mem_cons.mp hd with hdc | hdc
        · subst hdc
          exact absurd hbad hc
        · exact hdc
      obtain ⟨e, he, hebad, herr⟩ := ih (views.set c.toNat (views[c.toNat] ++ [columnID]))
        ⟨d, hdc, by rw [hlen]; exact hbad⟩
      rw [hlen] at hebad herr
      refine ⟨e, List.mem_cons_of_mem _ he, hebad, ?_⟩
      simp only [Report.appendToViews, hview, herr]

/-- A call of `AddColumn` that returns leaves the number of charts alone. -/
theorem Report.AddColumn_views_length {Time Column : Type} (r r1 : Report Time Column)
    (column : Column) (charts : List Int) (h : r.AddColumn column charts = .ok r1) :
    r1.Views.length = r.Views.length := by
  unfold Report.AddColumn at h
  simp only at h
  split at h
  · next views hv =>
    have hr : r1 = { r with Columns := r.Columns ++ [column], Views := views } := by
      injection h with h
      exact h.symm
    subst hr
    show views.length = r.Views.length
    clear h
    generalize (if charts.length = 0 then charts ++ [0] else charts) = cs at hv
    generalize r.Views = vs at hv
    induction cs generalizing vs with
    | nil =>
      simp only [Report.appendToViews] at hv
      injection hv with hv
      rw [← hv]
    | cons c cs ih =>
      simp only [Report.appendToViews] at hv
      split at hv
      · next views1 h1 =>
        unfold Report.appendToView at h1
        split at h1
        · injection h1 with h1
          rw [ih _ hv, ← h1, List.length_set]
        · exact absurd h1 (by simp)
      · exact absurd hv (by simp)
  · exact absurd h (by simp)

/-- The identifiers a client gets from `AddChart` count up from the number of
charts it started with, and each is, right after its call, the index of an
empty chart. -/
theorem Report.run_ids {Time Column : Type} (calls : List (Report.Call Column))
    (r : Report Time Column) :
    ((Report.run r calls).1.map Prod.fst =
      (List.range' r.Views.length (Report.run r calls).1.length).map (fun k : Nat => (k : Int))) ∧
    (∀ p ∈ (Report.run r calls).1, 0 ≤ p.1 ∧ p.2.Views[p.1.toNat]? = some []) ∧
    ((Report.run r calls).1.length ≤ calls.countP Report.Call.isAddChart) ∧
    (∀ rf, (Report.run r calls).2 = .ok rf →
      (Report.run r calls).1.length = calls.countP Report.Call.isAddChart) := by
  induction calls generalizing r with
  | nil => simp [Report.run]
  | cons call calls ih =>
    cases call with
    | addChart =>
      obtain ⟨h1, h2, h3, h4⟩ := ih r.AddChart.1
      have hlen : r.AddChart.1.Views.length = r.Views.length + 1 := by
        simp [Report.AddChart]
      have hid : r.AddChart.2 = (r.Views.length : Int) := by
        simp [Report.AddChart]
      refine ⟨?_, ?_, ?_, ?_⟩
      · simp only [Report.run, List.map_cons, List.length_cons, List.range'_succ, h1, hlen, hid]
      · intro p hp
        simp only [Report.run, List.mem_cons] at hp
        rcases hp with hp | hp
        · subst hp
          simp [Report.AddChart]
        · exact h2 p hp
      · simp only [Report.run, List.length_cons, List.countP_cons, Report.Call.isAddChart]
        simpa using h3
      · intro rf hrf
        simp only [Report.run] at hrf
        simp only [Report.run, List.length_cons, List.countP_cons, Report.Call.isAddChart]
        simpa using h4 rf hrf
    | addColumn column charts =>
      cases hc : r.AddColumn column charts with
      | error e => simp [Report.run, hc]
      | ok r1 =>
        obtain ⟨h1, h2, h3, h4⟩ := ih r1
        have hlen := Report.AddColumn_views_length r r1 column charts hc
        rw [hlen] at h1
        simp only [Report.run, hc, List.countP_cons, Report.Call.isAddChart]
        exact ⟨h1, h2, by simpa using h3, by simpa using h4⟩

/-- C6: on a report created by `NewReport`, whatever calls of `AddColumn`
are interleaved, the `k`-th call of `AddChart` returns `k` (`k >= 1`): the
identifiers returned are `1, 2, 3, ...` in order, so no two are equal and
none is the main chart's `0`; right after its call each identifier is a
valid index into `Views`, of an empty chart; and a client that is not ended
by a panic gets one identifier per call of `AddChart`. -/
theorem AddChart_unique_id {Time Column : Type} (title : String) (date : RecvChan Time)
    (now : String) (calls : List (Report.Call Column)) :
    ((Report.run (NewReport title date now) calls).1.map Prod.fst =
      (List.range' 1 (Report.run (NewReport title date now) calls).1.length).map
        (fun k : Nat => (k : Int))) ∧
    (∀ k : Nat, k < (Report.run (NewReport title date now) calls).1.length →
      ((Report.run (NewReport title date now) calls).1.map Prod.fst)[k]? =
        some ((k : Int) + 1)) ∧
    ((Report.run (NewReport title date now) calls).1.map Prod.fst).Nodup ∧
    (0 : Int) ∉ (Report.run (NewReport title date now) calls).1.map Prod.fst ∧
    (∀ p ∈ (Report.run (NewReport title date now) calls).1,
      0 ≤ p.1 ∧ p.1.toNat < p.2.Views.length ∧ p.2.Views[p.1.toNat]? = some []) ∧
    (∀ rf, (Report.run (NewReport title date now) calls).2 = .ok rf →
      (Report.run (NewReport title date now) calls).1.length =
        calls.countP Report.Call.isAddChart) := by
  obtain ⟨h1, h2, _, h4⟩ :=
    Report.run_ids calls (NewReport title date now : Report Time Column)
  have hlen : (NewReport title date now : Report Time Column).Views.length = 1 := rfl
  rw [hlen] at h1
  have hinj : Function.Injective (fun k : Nat => (k : Int)) := fun a b h => by
    simpa using h
  refine ⟨h1, ?_, ?_, ?_, ?_, h4⟩
  · intro k hk
    rw [h1, List.getElem?_map, List.getElem?_range' _ _ hk]
    simp
    omega
  · rw [h1]
    exact (List.nodup_range' 1 _).map hinj
  · rw [h1]
    simp only [List.mem_map, List.mem_range', not_exists, not_and]
    intro k hk
    omega
  · intro p hp
    obtain ⟨h0, hv⟩ := h2 p hp
    refine ⟨h0, ?_, hv⟩
    by_contra hge
    rw [List.getElem?_eq_none (by omega)] at hv
    exact absurd hv (by simp)

/-- On lists: on a report whose `Views` holds the main chart `main` followed
by the charts `rest`, `AddColumn(column)` with no chart identifier returns
normally; afterwards `column` is the last element of `Columns`, its
identifier (the new `len(Columns)`) is the last element of the main chart,
and every other chart, the earlier columns, `Title`, `Date`, `DateFormat` and
`GeneratedOn` are as before. -/
theorem Report.AddColumn_no_charts {Time Column : Type} (r : Report Time Column)
    (column : Column) (main : List Int) (rest : List (List Int)) (h : r.Views = main :: rest) :
    r.AddColumn column [] =
      .ok { Title := r.Title
            Date := r.Date
            Columns := r.Columns ++ [column]
            Views := (main ++ [(r.Columns.length : Int) + 1]) :: rest
            DateFormat := r.DateFormat
            GeneratedOn := r.GeneratedOn } := by
  simp [Report.AddColumn, Report.appendToViews, Report.appendToView, h]

/-- On lists, for a non-empty list `charts` of identifiers.  If all of them are in
`[0, len(Views))`, `AddColumn(column, charts...)` returns normally, appends
`column` to `Columns`, keeps the number of charts and the other fields, and
appends the new column identifier to chart `i` once per occurrence of `i` in
`charts`, so a chart that is not listed (the main chart `0` too) is
unchanged.  If some identifier is outside `[0, len(Views))`, the call panics
with index out of range, at the first such identifier. -/
theorem Report.AddColumn_charts {Time Column : Type} (r : Report Time Column)
    (column : Column) (charts : List Int) (hne : charts ≠ []) :
    ((∀ c ∈ charts, 0 ≤ c ∧ c < (r.Views.length : Int)) →
      ∃ r1, r.AddColumn column charts = .ok r1 ∧
        r1.Columns = r.Columns ++ [column] ∧
        r1.Views.length = r.Views.length ∧
        (∀ i : Nat, r1.Views[i]? = r.Views[i]?.map (fun v =>
          v ++ List.replicate (charts.count (i : Int)) ((r.Columns.length : Int) + 1))) ∧
        (∀ i : Nat, (i : Int) ∉ charts → r1.Views[i]? = r.Views[i]?) ∧
        r1.Title = r.Title ∧ r1.Date = r.Date ∧ r1.DateFormat = r.DateFormat ∧
        r1.GeneratedOn = r.GeneratedOn) ∧
    ((∃ c ∈ charts, c < 0 ∨ (r.Views.length : Int) ≤ c) →
      ∃ c ∈ charts, (c < 0 ∨ (r.Views.length : Int) ≤ c) ∧
        r.AddColumn column charts = .error (.indexOutOfRange c r.Views.length)) := by
  have hlen : ¬ charts.length = 0 := by
    intro h0
    exact hne (List.length_eq_zero.mp h0)
  constructor
  · intro hall
    obtain ⟨views1, hrun, hl, hget⟩ :=
      Report.appendToViews_ok ((r.Columns.length : Int) + 1) charts r.Views hall
    refine ⟨{ r with Columns := r.Columns ++ [column], Views := views1 }, ?_, rfl, hl, hget,
      ?_, rfl, rfl, rfl, rfl⟩
    · simp [Report.AddColumn, hlen, hrun]
    · intro i hi
      show views1[i]? = r.Views[i]?
      rw [hget i, List.count_eq_zero_of_not_mem hi]
      cases r.Views[i]? <;> simp
  · intro hbad
    obtain ⟨c, hc, hcbad, herr⟩ :=
      Report.appendToViews_error ((r.Columns.length : Int) + 1) charts r.Views hbad
    exact ⟨c, hc, hcbad, by simp [Report.AddColumn, hlen, herr]⟩

/-! ## Properties of the annotation column -/

/-- The `%q` form of a string starts with a double quote: it is not the text
`null`. -/
theorem fmt.Sprintf_q_ne_null (escape : String → String) (value : String) :
    fmt.Sprintf_q escape value ≠ "null" := by
  intro h
  have hd := congrArg String.data h
  simp [fmt.Sprintf_q, String.data_append] at hd

/-- C9: on a stream whose next value is `value`, `Value` receives that value
(the stream is left with the values after it) and returns the text `null`
exactly when `value` is the empty string; otherwise it returns the `%q` form
of `value`, which is never the text `null`.  On a closed, exhausted stream
the receive yields the empty string and `Value` returns `null`. -/
theorem annotationReportColumn_Value_null (escape : String → String) (value : String)
    (rest : List String) :
    annotationReportColumn.Value escape { values := value :: rest } =
      (if value = "" then "null" else "\"" ++ escape value ++ "\"", { values := rest }) ∧
    ((annotationReportColumn.Value escape { values := value :: rest }).1 = "null" ↔
      value = "") ∧
    annotationReportColumn.Value escape { values := [] } = ("null", { values := [] }) ∧
    (∀ v : String, fmt.Sprintf_q escape v ≠ "null") := by
  have hv : annotationReportColumn.Value escape { values := value :: rest } =
      (if value = "" then "null" else "\"" ++ escape value ++ "\"", { values := rest }) := by
    by_cases h : value = ""
    · simp [annotationReportColumn.Value, annotationReportColumn.next, recv, h]
    · simp [annotationReportColumn.Value, annotationReportColumn.next, recv, h,
        fmt.Sprintf_q]
  refine ⟨hv, ?_, ?_, fmt.Sprintf_q_ne_null escape⟩
  · rw [hv]
    by_cases h : value = ""
    · simp [h]
    · simp only [h, if_false, iff_false]
      exact fmt.Sprintf_q_ne_null escape value
  · simp [annotationReportColumn.Value, annotationReportColumn.next, recv]

/-! ## Properties of the workers, one step at a time -/

theorem Apply.exec_add {T : Type} (f : T → T) (m n : Nat) (s : Apply.Machine T) :
    Apply.exec f (m + n) s = Apply.exec f m (Apply.exec f n s) :=
  Function.iterate_add_apply _ m n s

theorem Apply.exec_succ {T : Type} (f : T → T) (n : Nat) (s : Apply.Machine T) :
    Apply.exec f (n + 1) s = Apply.next f (Apply.exec f n s) :=
  Function.iterate_succ_apply' _ n s

/-- From its receive, the worker of `Apply` takes two steps per input value
and one more to return, with every image handed over in order. -/
theorem Apply.exec_recv {T : Type} (f : T → T) (c taken received : List T) :
    Apply.exec f (2 * c.length + 1)
        { c := c, pc := .recv, taken := taken, received := received, closed := false } =
      { c := [], pc := .done, taken := taken ++ c, received := received ++ c.map f,
        closed := true } := by
  induction c generalizing taken received with
  | nil => simp [Apply.exec, Apply.next, Apply.step]
  | cons n c ih =>
    have h2 : Apply.exec f 2
        { c := n :: c, pc := .recv, taken := taken, received := received, closed := false } =
        { c := c, pc := .recv, taken := taken ++ [n], received := received ++ [f n],
          closed := false } := by
      simp [Apply.exec, Apply.next, Apply.step]
    have hn : 2 * (n :: c).length + 1 = (2 * c.length + 1) + 2 := by
      simp only [List.length_cons]
      omega
    rw [hn, Apply.exec_add, h2, ih]
    simp

/-- A worker of `Apply` that has returned stays as it is. -/
theorem Apply.exec_done {T : Type} (f : T → T) (n : Nat) (s : Apply.Machine T)
    (h : s.pc = .done) : Apply.exec f n s = s := by
  induction n with
  | zero => rfl
  | succ n ih =>
    rw [Apply.exec_succ, ih]
    simp [Apply.next, Apply.step, h]

/-- What every step of the worker of `Apply` keeps: the output is closed
exactly when the worker has returned, and the values taken are as many as the
values handed over, plus the one that waits at the send. -/
def Apply.Inv {T : Type} (s : Apply.Machine T) : Prop :=
  (s.closed = true ↔ s.pc = .done) ∧
  s.taken.length = s.received.length + (match s.pc with | .send _ => 1 | _ => 0)

theorem Apply.Inv_next {T : Type} (f : T → T) (s : Apply.Machine T) (h : Apply.Inv s) :
    Apply.Inv (Apply.next f s) := by
  obtain ⟨c, pc, taken, received, closed⟩ := s
  obtain ⟨h1, h2⟩ := h
  cases pc with
  | recv =>
    cases c with
    | nil => simp_all [Apply.Inv, Apply.next, Apply.step]
    | cons n c => simp_all [Apply.Inv, Apply.next, Apply.step]
  | send v => simp_all [Apply.Inv, Apply.next, Apply.step]
  | done => simp_all [Apply.Inv, Apply.next, Apply.step]

theorem Apply.Inv_exec {T : Type} (f : T → T) (c : RecvChan T) (n : Nat) :
    Apply.Inv (Apply.exec f n (Apply.start c)) := by
  induction n with
  | zero => simp [Apply.Inv, Apply.exec, Apply.start]
  | succ n ih =>
    rw [Apply.exec_succ]
    exact Apply.Inv_next f _ ih

theorem Operate.steps_add {A B R : Type} (o : A → B → R) (m n : Nat)
    (s : Operate.Machine A B R) :
    Operate.exec o (m + n) s = Operate.exec o m (Operate.exec o n s) :=
  Function.iterate_add_apply _ m n s

theorem Operate.steps_succ {A B R : Type} (o : A → B → R) (n : Nat)
    (s : Operate.Machine A B R) :
    Operate.exec o (n + 1) s = Operate.next o (Operate.exec o n s) :=
  Function.iterate_succ_apply' _ n s

/-- In `Drain(bc)` the worker of `Operate` takes one step per value left in
`bc` and one more to return; nothing is handed over. -/
theorem Operate.steps_drainB {A B R : Type} (o : A → B → R) (a : List A) (b : List B)
    (received : List R) :
    Operate.exec o (b.length + 1)
        { ac := a, bc := b, pc := .drainB, received := received, closed := false } =
      { ac := a, bc := [], pc := .done, received := received, closed := true } := by
  induction b with
  | nil => simp [Operate.exec, Operate.next, Operate.step, Drain.step]
  | cons y b ih =>
    have h1 : Operate.exec o 1
        { ac := a, bc := y :: b, pc := .drainB, received := received, closed := false } =
        { ac := a, bc := b, pc := .drainB, received := received, closed := false } := by
      simp [Operate.exec, Operate.next, Operate.step, Drain.step]
    rw [List.length_cons, Operate.steps_add, h1, ih]

/-- In `Drain(ac)` the worker of `Operate` takes one step per value left in
`ac` and one more to return; nothing is handed over. -/
theorem Operate.steps_drainA {A B R : Type} (o : A → B → R) (a : List A) (b : List B)
    (received : List R) :
    Operate.exec o (a.length + 1)
        { ac := a, bc := b, pc := .drainA, received := received, closed := false } =
      { ac := [], bc := b, pc := .done, received := received, closed := true } := by
  induction a with
  | nil => simp [Operate.exec, Operate.next, Operate.step, Drain.step]
  | cons x a ih =>
    have h1 : Operate.exec o 1
        { ac := x :: a, bc := b, pc := .drainA, received := received, closed := false } =
        { ac := a, bc := b, pc := .drainA, received := received, closed := false } := by
      simp [Operate.exec, Operate.next, Operate.step, Drain.step]
    rw [List.length_cons, Operate.steps_add, h1, ih]

/-- From the top of its loop the worker of `Operate` returns after finitely
many steps, with both inputs read to the end and the pairwise results handed
over in order. -/
theorem Operate.steps_recvA {A B R : Type} (o : A → B → R) (a : List A) (b : List B)
    (received : List R) :
    ∃ n, Operate.exec o n
        { ac := a, bc := b, pc := .recvA, received := received, closed := false } =
      { ac := [], bc := [], pc := .done, received := received ++ List.zipWith o a b,
        closed := true } := by
  induction a generalizing b received with
  | nil =>
    refine ⟨(b.length + 1) + 1, ?_⟩
    have h1 : Operate.exec o 1
        { ac := [], bc := b, pc := .recvA, received := received, closed := false } =
        { ac := [], bc := b, pc := .drainB, received := received, closed := false } := by
      simp [Operate.exec, Operate.next, Operate.step]
    rw [Operate.steps_add, h1, Operate.steps_drainB]
    simp
  | cons x a ih =>
    cases b with
    | nil =>
      refine ⟨(a.length + 1) + 2, ?_⟩
      have h2 : Operate.exec o 2
          { ac := x :: a, bc := [], pc := .recvA, received := received, closed := false } =
          { ac := a, bc := [], pc := .drainA, received := received, closed := false } := by
        simp [Operate.exec, Operate.next, Operate.step]
      rw [Operate.steps_add, h2, Operate.steps_drainA]
      simp
    | cons y b =>
      obtain ⟨n, hn⟩ := ih b (received ++ [o x y])
      refine ⟨n + 3, ?_⟩
      have h3 : Operate.exec o 3
          { ac := x :: a, bc := y :: b, pc := .recvA, received := received,
            closed := false } =
          { ac := a, bc := b, pc := .recvA, received := received ++ [o x y],
            closed := false } := by
        simp [Operate.exec, Operate.next, Operate.step]
      rw [Operate.steps_add, h3, hn]
      simp

/-- A worker of `Operate` that has returned stays as it is. -/
theorem Operate.steps_done {A B R : Type} (o : A → B → R) (n : Nat)
    (s : Operate.Machine A B R) (h : s.pc = .done) : Operate.exec o n s = s := by
  induction n with
  | zero => rfl
  | succ n ih =>
    rw [Operate.steps_succ, ih]
    simp [Operate.next, Operate.step, h]

/-- A step of the worker of `Operate` keeps the output closed exactly when
the worker has returned. -/
theorem Operate.closed_next {A B R : Type} (o : A → B → R) (s : Operate.Machine A B R)
    (h : s.closed = true ↔ s.pc = .done) :
    (Operate.next o s).closed = true ↔ (Operate.next o s).pc = .done := by
  obtain ⟨ac, bc, pc, received, closed⟩ := s
  cases pc with
  | recvA => cases ac <;> simp_all [Operate.next, Operate.step]
  | recvB an => cases bc <;> simp_all [Operate.next, Operate.step]
  | send r => simp_all [Operate.next, Operate.step]
  | drainB => cases bc <;> simp_all [Operate.next, Operate.step, Drain.step]
  | drainA => cases ac <;> simp_all [Operate.next, Operate.step, Drain.step]
  | done => simp_all [Operate.next, Operate.step]

theorem Operate.closed_steps {A B R : Type} (o : A → B → R) (a : RecvChan A) (b : RecvChan B)
    (n : Nat) :
    (Operate.exec o n (Operate.start a b)).closed = true ↔
      (Operate.exec o n (Operate.start a b)).pc = .done := by
  induction n with
  | zero => simp [Operate.exec, Operate.start]
  | succ n ih =>
    rw [Operate.steps_succ]
    exact Operate.closed_next o _ ih

/-- Once the worker of `Operate` has found an input ended, a step hands
nothing over and leaves it past that point. -/
theorem Operate.observedEnd_next {A B R : Type} (o : A → B → R) (s : Operate.Machine A B R)
    (h : s.pc.observedEnd = true) :
    (Operate.next o s).pc.observedEnd = true ∧ (Operate.next o s).received = s.received := by
  obtain ⟨ac, bc, pc, received, closed⟩ := s
  cases pc with
  | recvA => simp [Operate.PC.observedEnd] at h
  | recvB an => simp [Operate.PC.observedEnd] at h
  | send r => simp [Operate.PC.observedEnd] at h
  | drainB => cases bc <;> simp [Operate.next, Operate.step, Drain.step, Operate.PC.observedEnd]
  | drainA => cases ac <;> simp [Operate.next, Operate.step, Drain.step, Operate.PC.observedEnd]
  | done => simp [Operate.next, Operate.step, Operate.PC.observedEnd]

theorem Operate.observedEnd_steps {A B R : Type} (o : A → B → R) (k : Nat)
    (s : Operate.Machine A B R) (h : s.pc.observedEnd = true) :
    (Operate.exec o k s).pc.observedEnd = true ∧ (Operate.exec o k s).received = s.received := by
  induction k with
  | zero => exact ⟨h, rfl⟩
  | succ k ih =>
    rw [Operate.steps_succ]
    obtain ⟨h1, h2⟩ := Operate.observedEnd_next o _ ih.1
    exact ⟨h1, h2.trans ih.2⟩

/-- The values the worker of `Apply` has taken, followed by those still
unread, are the input. -/
theorem Apply.taken_exec {T : Type} (f : T → T) (c : RecvChan T) (n : Nat) :
    (Apply.exec f n (Apply.start c)).taken ++ (Apply.exec f n (Apply.start c)).c = c := by
  induction n with
  | zero => simp [Apply.exec, Apply.start]
  | succ n ih =>
    rw [Apply.exec_succ]
    generalize Apply.exec f n (Apply.start c) = s at ih
    obtain ⟨c1, pc, taken, received, closed⟩ := s
    cases pc with
    | recv => cases c1 <;> simp_all [Apply.next, Apply.step]
    | send v => simp_all [Apply.next, Apply.step]
    | done => simp_all [Apply.next, Apply.step]

/-- C11: on finite, closed inputs and with a consumer that keeps reading, the
worker of `Operate` returns after finitely many steps, having handed over
exactly the values of `Operate(a, b, o)`, and stays returned; at every step
its output is closed exactly when it has returned; and from a step at which
it has found an input ended on, the consumer receives nothing more.  Likewise
for the worker of `Apply`, which has nothing more to do once it has found its
input ended. -/
theorem workers_terminate_and_close {A B R T : Type} (a : RecvChan A) (b : RecvChan B)
    (o : A → B → R) (c : RecvChan T) (f : T → T) :
    (∃ n, Operate.step o (Operate.exec o n (Operate.start a b)) = none ∧
      ∀ m, n ≤ m → Operate.exec o m (Operate.start a b) =
        { ac := [], bc := [], pc := .done, received := (Operate a b o).sent,
          closed := true }) ∧
    (∀ n, (Operate.exec o n (Operate.start a b)).closed = true ↔
      (Operate.exec o n (Operate.start a b)).pc = .done) ∧
    (∀ n k, (Operate.exec o n (Operate.start a b)).pc.observedEnd = true →
      (Operate.exec o (n + k) (Operate.start a b)).pc.observedEnd = true ∧
      (Operate.exec o (n + k) (Operate.start a b)).received =
        (Operate.exec o n (Operate.start a b)).received) ∧
    (∃ n, Apply.step f (Apply.exec f n (Apply.start c)) = none ∧
      ∀ m, n ≤ m → Apply.exec f m (Apply.start c) =
        { c := [], pc := .done, taken := c, received := (Apply c f).sent,
          closed := true }) ∧
    (∀ n, (Apply.exec f n (Apply.start c)).closed = true ↔
      (Apply.exec f n (Apply.start c)).pc = .done) ∧
    (∀ n k, (Apply.exec f n (Apply.start c)).pc = .done →
      Apply.exec f (n + k) (Apply.start c) = Apply.exec f n (Apply.start c)) := by
  refine ⟨?_, Operate.closed_steps o a b, ?_, ?_, fun n => (Apply.Inv_exec f c n).1, ?_⟩
  · obtain ⟨n, hn⟩ := Operate.steps_recvA o a b []
    have hs : (Operate a b o).sent = List.zipWith o a b := by
      simp [Operate, Operate.worker_eq]
    have hn1 : Operate.exec o n (Operate.start a b) =
        { ac := [], bc := [], pc := .done, received := (Operate a b o).sent,
          closed := true } := by
      rw [hs]
      simpa [Operate.start] using hn
    refine ⟨n, by rw [hn1]; rfl, ?_⟩
    intro m hm
    obtain ⟨k, rfl⟩ := Nat.exists_eq_add_of_le hm
    rw [Nat.add_comm, Operate.steps_add, hn1]
    exact Operate.steps_done o k _ rfl
  · intro n k h
    rw [Nat.add_comm, Operate.steps_add]
    exact Operate.observedEnd_steps o k _ h
  · have hn := Apply.exec_recv f c [] []
    have hn1 : Apply.exec f (2 * c.length + 1) (Apply.start c) =
        { c := [], pc := .done, taken := c, received := (Apply c f).sent,
          closed := true } := by
      rw [Apply_eq]
      simpa [Apply.start] using hn
    refine ⟨2 * c.length + 1, by rw [hn1]; rfl, ?_⟩
    intro m hm
    obtain ⟨k, rfl⟩ := Nat.exists_eq_add_of_le hm
    rw [Nat.add_comm, Apply.exec_add, hn1]
    exact Apply.exec_done f k _ rfl
  · intro n k h
    rw [Nat.add_comm, Apply.exec_add]
    exact Apply.exec_done f k _ h

/-- C12: at every state the worker of `Apply` reaches, the values it has
taken from its input (a prefix of the input) are as many as the values its
consumer has received, plus one exactly when a computed result waits at the
send: never more than one ahead.  While a result waits the next step takes
nothing from the input, and a step that takes a value starts with every
result delivered. -/
theorem Apply_at_most_one_undelivered {T : Type} (c : RecvChan T) (f : T → T) (n : Nat) :
    (Apply.exec f n (Apply.start c)).taken.length ≤
      (Apply.exec f n (Apply.start c)).received.length + 1 ∧
    (Apply.exec f n (Apply.start c)).taken.length =
      (Apply.exec f n (Apply.start c)).received.length +
        (match (Apply.exec f n (Apply.start c)).pc with | .send _ => 1 | _ => 0) ∧
    (Apply.exec f n (Apply.start c)).taken ++ (Apply.exec f n (Apply.start c)).c = c ∧
    (∀ v, (Apply.exec f n (Apply.start c)).pc = .send v →
      (Apply.exec f (n + 1) (Apply.start c)).taken =
        (Apply.exec f n (Apply.start c)).taken) ∧
    ((Apply.exec f (n + 1) (Apply.start c)).taken ≠ (Apply.exec f n (Apply.start c)).taken →
      (Apply.exec f n (Apply.start c)).taken.length =
        (Apply.exec f n (Apply.start c)).received.length) := by
  have hinv := (Apply.Inv_exec f c n).2
  have htaken := Apply.taken_exec f c n
  rw [Apply.exec_succ]
  generalize Apply.exec f n (Apply.start c) = s at hinv htaken
  obtain ⟨c1, pc, taken, received, closed⟩ := s
  refine ⟨?_, hinv, htaken, ?_, ?_⟩
  · cases pc <;> simp_all
  · intro v hv
    simp only at hv
    subst hv
    simp [Apply.next, Apply.step]
  · intro hne
    cases pc with
    | recv => simpa using hinv
    | send v => exact absurd (by simp [Apply.next, Apply.step]) hne
    | done => simpa using hinv

/-- C14: `Apply` fuses under composition: on every finite input `c` and for
all functions `f` and `g`, the worker of `Apply(·, g)` reading what
`Apply(c, f)` sends produces the same values, and the same closed stream, as
`Apply(c, g ∘ f)`. -/
theorem Apply_fusion {T : Type} (c : RecvChan T) (f g : T → T) :
    (Apply (Apply c f).recvEnd g).sent = (Apply c (g ∘ f)).sent ∧
    Apply (Apply c f).recvEnd g = Apply c (g ∘ f) ∧
    (Apply (Apply c f).recvEnd g).sent = c.map (fun x => g (f x)) := by
  simp [Apply_eq, SendChan.recvEnd]

/-! ## The shape of the reports a client can build -/

/-- `AddColumn` in terms of its loop, run on the list of charts it settles
on. -/
theorem Report.AddColumn_of_loop {Time Column : Type} (r : Report Time Column)
    (column : Column) (charts : List Int) (views1 : List (List Int))
    (h : Report.appendToViews ((r.Columns.length : Int) + 1) r.Views
      (if charts = [] then [0] else charts) = .ok views1) :
    r.AddColumn column charts =
      .ok { r with Columns := r.Columns ++ [column], Views := views1 } := by
  by_cases hc : charts = []
  · subst hc
    simp only [if_true] at h
    simp [Report.AddColumn, h]
  · have hlen : ¬ charts.length = 0 := fun h0 => hc (List.length_eq_zero.mp h0)
    simp only [hc, if_false] at h
    simp [Report.AddColumn, hlen, h]

/-- `AddColumn` with chart identifiers in range keeps a report well formed,
and keeps its number of charts. -/
theorem Report.AddColumn_wellFormed {Time Column : Type} (r : Report Time Column)
    (column : Column) (charts : List Int) (hwf : r.WellFormed)
    (hc : ∀ c ∈ charts, 0 ≤ c ∧ c < (r.Views.length : Int)) :
    ∃ r1, r.AddColumn column charts = .ok r1 ∧ r1.WellFormed ∧
      r1.Views.length = r.Views.length := by
  obtain ⟨hne, hentries, hcover⟩ := hwf
  have hpos : 0 < r.Views.length := List.length_pos.mpr hne
  have hall : ∀ c ∈ (if charts = [] then [0] else charts),
      0 ≤ c ∧ c < (r.Views.length : Int) := by
    intro c hmem
    by_cases he : charts = []
    · simp only [he, if_true, List.mem_singleton] at hmem
      subst hmem
      exact ⟨le_refl _, by exact_mod_cast hpos⟩
    · simp only [he, if_false] at hmem
      exact hc c hmem
  have hcs : (if charts = [] then [0] else charts) ≠ [] := by
    by_cases he : charts = [] <;> simp [he]
  generalize hcsdef : (if charts = [] then [0] else charts) = cs at hall hcs
  obtain ⟨views1, hrun, hl, hget⟩ :=
    Report.appendToViews_ok ((r.Columns.length : Int) + 1) cs r.Views hall
  have hcols : (((r.Columns ++ [column]).length : Nat) : Int) = (r.Columns.length : Int) + 1 := by
    simp
  refine ⟨{ r with Columns := r.Columns ++ [column], Views := views1 },
    Report.AddColumn_of_loop r column charts views1 (by rw [hcsdef]; exact hrun),
    ⟨?_, ?_, ?_⟩, hl⟩
  · intro h
    have h1 : views1 = [] := h
    have h0 : views1.length = 0 := by rw [h1]; rfl
    omega
  · intro chart hchart c hcmem
    show 1 ≤ c ∧ c ≤ (((r.Columns ++ [column]).length : Nat) : Int)
    rw [hcols]
    obtain ⟨i, hi⟩ := List.mem_iff_getElem?.mp hchart
    have hi1 : views1[i]? = some chart := hi
    rw [hget i] at hi1
    cases hv : r.Views[i]? with
    | none => simp [hv] at hi1
    | some v =>
      simp only [hv, Option.map_some', Option.some.injEq] at hi1
      subst hi1
      rcases List.mem_append.mp hcmem with h | h
      · have hb := hentries v (List.getElem?_mem hv) c h
        omega
      · have hb := List.eq_of_mem_replicate h
        omega
  · intro k hk1 hk2
    have hk3 : k ≤ r.Columns.length + 1 := by simpa using hk2
    by_cases hk : k ≤ r.Columns.length
    · obtain ⟨chart, hch, hkc⟩ := hcover k hk1 hk
      obtain ⟨i, hi⟩ := List.mem_iff_getElem?.mp hch
      refine ⟨chart ++ List.replicate (cs.count (i : Int)) ((r.Columns.length : Int) + 1),
        ?_, List.mem_append_left _ hkc⟩
      exact List.mem_iff_getElem?.mpr ⟨i, by rw [hget i, hi]; rfl⟩
    · have hkeq : (k : Int) = (r.Columns.length : Int) + 1 := by omega
      cases cs with
      | nil => exact absurd rfl hcs
      | cons c0 rest =>
        have hc0 := hall c0 (List.mem_cons_self _ _)
        have hi : c0.toNat < r.Views.length := by omega
        have hci : ((c0.toNat : Nat) : Int) = c0 := Int.toNat_of_nonneg hc0.1
        have hcount : (c0 :: rest).count ((c0.toNat : Nat) : Int) ≠ 0 := by
          rw [hci]
          simp
        refine ⟨r.Views[c0.toNat] ++
          List.replicate ((c0 :: rest).count ((c0.toNat : Nat) : Int))
            ((r.Columns.length : Int) + 1), ?_, ?_⟩
        · exact List.mem_iff_getElem?.mpr
            ⟨c0.toNat, by rw [hget c0.toNat, List.getElem?_eq_getElem hi]; rfl⟩
        · exact List.mem_append_right _ (List.mem_replicate.mpr ⟨hcount, hkeq⟩)

/-- `AddChart` keeps a report well formed and returns the index of the chart
it adds. -/
theorem Report.AddChart_wellFormed {Time Column : Type} (r : Report Time Column)
    (hwf : r.WellFormed) :
    r.AddChart.1.WellFormed ∧ r.AddChart.2 = (r.Views.length : Int) ∧
      r.AddChart.1.Views.length = r.Views.length + 1 := by
  obtain ⟨_, hentries, hcover⟩ := hwf
  refine ⟨⟨?_, ?_, ?_⟩, by simp [Report.AddChart], by simp [Report.AddChart]⟩
  · simp [Report.AddChart]
  · intro chart hchart c hcmem
    have hch : chart ∈ r.Views ++ [[]] := hchart
    rcases List.mem_append.mp hch with h | h
    · exact hentries chart h c hcmem
    · rw [List.mem_singleton.mp h] at hcmem
      exact absurd hcmem (List.not_mem_nil c)
  · intro k hk1 hk2
    obtain ⟨chart, hch, hkc⟩ := hcover k hk1 hk2
    exact ⟨chart, List.mem_append_left _ hch, hkc⟩

/-- A client that starts from a well-formed report, knows only identifiers of
charts the report has, and passes only `0` or identifiers it knows, is never
ended by a panic and ends with a well-formed report. -/
theorem Report.run_wellFormed {Time Column : Type} (calls : List (Report.Call Column))
    (r : Report Time Column) (known : List Int) (hwf : r.WellFormed)
    (hk : ∀ c ∈ known, 0 ≤ c ∧ c < (r.Views.length : Int))
    (h : Report.admissible r known calls = true) :
    ∃ rf, (Report.run r calls).2 = .ok rf ∧ rf.WellFormed := by
  induction calls generalizing r known with
  | nil => exact ⟨r, rfl, hwf⟩
  | cons call calls ih =>
    cases call with
    | addChart =>
      obtain ⟨hwf1, hid, hlen⟩ := Report.AddChart_wellFormed r hwf
      have hk1 : ∀ c ∈ r.AddChart.2 :: known,
          0 ≤ c ∧ c < (r.AddChart.1.Views.length : Int) := by
        intro c hcmem
        rw [hlen]
        rcases List.mem_cons.mp hcmem with h1 | h1
        · rw [h1, hid]
          push_cast
          omega
        · have := hk c h1
          push_cast
          omega
      simp only [Report.admissible] at h
      obtain ⟨rf, hrf, hwff⟩ := ih r.AddChart.1 (r.AddChart.2 :: known) hwf1 hk1 h
      exact ⟨rf, by simpa [Report.run] using hrf, hwff⟩
    | addColumn column charts =>
      simp only [Report.admissible, Bool.and_eq_true, List.all_eq_true, Bool.or_eq_true,
        beq_iff_eq] at h
      obtain ⟨hcharts, hrest⟩ := h
      have hpos : 0 < r.Views.length := List.length_pos.mpr hwf.1
      have hc : ∀ c ∈ charts, 0 ≤ c ∧ c < (r.Views.length : Int) := by
        intro c hcmem
        rcases hcharts c hcmem with h0 | hkn
        · rw [h0]
          exact ⟨le_refl _, by exact_mod_cast hpos⟩
        · exact hk c (List.mem_of_elem_eq_true hkn)
      obtain ⟨r1, hok, hwf1, hlen⟩ := Report.AddColumn_wellFormed r column charts hwf hc
      rw [hok] at hrest
      obtain ⟨rf, hrf, hwff⟩ := ih r1 known hwf1 (by rw [hlen]; exact hk) hrest
      exact ⟨rf, by simpa [Report.run, hok] using hrf, hwff⟩

/-- C13: a client that starts from `NewReport` and makes any calls of
`AddChart` and of `AddColumn`, the latter with chart identifiers that are `0`
or were returned by an earlier `AddChart`, is never ended by a panic of
`AddColumn`, and the report it arrives at has a non-empty `Views`, only
entries `c` with `1 <= c <= len(Columns)` in its charts, and every column
identifier `1..len(Columns)` in at least one chart. -/
theorem reports_stay_wellFormed {Time Column : Type} (title : String) (date : RecvChan Time)
    (now : String) (calls : List (Report.Call Column))
    (h : Report.admissible (NewReport title date now : Report Time Column) [] calls = true) :
    ∃ rf, (Report.run (NewReport title date now : Report Time Column) calls).2 = .ok rf ∧
      rf.Views ≠ [] ∧
      (∀ chart ∈ rf.Views, ∀ c ∈ chart, 1 ≤ c ∧ c ≤ (rf.Columns.length : Int)) ∧
      (∀ k : Nat, 1 ≤ k → k ≤ rf.Columns.length → ∃ chart ∈ rf.Views, (k : Int) ∈ chart) := by
  have hwf : (NewReport title date now : Report Time Column).WellFormed := by
    refine ⟨by simp [NewReport], ?_, ?_⟩
    · intro chart hchart c hcmem
      have hch : chart ∈ [([] : List Int)] := hchart
      rw [List.mem_singleton.mp hch] at hcmem
      exact absurd hcmem (List.not_mem_nil c)
    · intro k hk1 hk2
      have hk3 : k ≤ 0 := hk2
      omega
  obtain ⟨rf, hrf, hwff⟩ := Report.run_wellFormed calls _ [] hwf (by simp) h
  exact ⟨rf, hrf, hwff⟩

/-- C13 for a client that adds a column to the main chart, a chart, a column
to both charts, a second chart and a column to it. -/
theorem reports_stay_wellFormed_witness :
    ∃ rf, (Report.run (NewReport "t" [] "n" : Report Nat String)
        [.addColumn "a" [], .addChart, .addColumn "b" [1, 0], .addChart,
          .addColumn "c" [2]]).2 = .ok rf ∧
      rf.Views ≠ [] ∧
      (∀ chart ∈ rf.Views, ∀ c ∈ chart, 1 ≤ c ∧ c ≤ (rf.Columns.length : Int)) ∧
      (∀ k : Nat, 1 ≤ k → k ≤ rf.Columns.length → ∃ chart ∈ rf.Views, (k : Int) ∈ chart) :=
  reports_stay_wellFormed "t" [] "n"
    [.addColumn "a" [], .addChart, .addColumn "b" [1, 0], .addChart, .addColumn "c" [2]]
    (by decide)

/-! ## `AddColumn` on charts that may share storage -/

theorem Mem.Slice.elems_getElem? (h : Mem.Heap) (s : Mem.Slice) (j : Nat) :
    (s.elems h)[j]? = if j < s.len then (Mem.Heap.array h s.arr)[s.off + j]? else none := by
  simp [Mem.Slice.elems, List.getElem?_take, List.getElem?_drop]

theorem Mem.Slice.elems_length (h : Mem.Heap) (s : Mem.Slice) (hs : s.Valid h) :
    (s.elems h).length = s.len := by
  obtain ⟨h1, h2⟩ := hs
  simp only [Mem.Slice.elems, List.length_take, List.length_drop]
  omega

/-- The backing arrays after one of them was replaced. -/
theorem Mem.Heap.array_set (h : Mem.Heap) (a b : Nat) (x : List Int) (ha : a < h.length) :
    Mem.Heap.array (h.set a x) b = if a = b then x else Mem.Heap.array h b := by
  unfold Mem.Heap.array
  rw [List.getElem?_set]
  by_cases hab : a = b
  · subst hab
    simp [ha]
  · simp [hab]

/-- The backing arrays after one was allocated. -/
theorem Mem.Heap.array_append (h : Mem.Heap) (b : Nat) (x : List Int) :
    Mem.Heap.array (h ++ [x]) b =
      if b = h.length then x else Mem.Heap.array h b := by
  unfold Mem.Heap.array
  by_cases hb : b < h.length
  · rw [List.getElem?_append_left hb]
    simp [Nat.ne_of_lt hb]
  · rw [List.getElem?_append_right (by omega)]
    by_cases hb2 : b = h.length
    · simp [hb2]
    · have h3 : ([x] : List (List Int))[b - h.length]? = none :=
        List.getElem?_eq_none (by simp; omega)
      have h4 : h[b]? = none := List.getElem?_eq_none (by omega)
      simp [hb2, h3, h4]

/-- A slice with spare capacity lies in an allocated array. -/
theorem Mem.Slice.arr_lt (h : Mem.Heap) (s : Mem.Slice) (hs : s.Valid h) (hlt : s.len < s.cap) :
    s.arr < h.length := by
  by_contra hge
  have h0 : Mem.Heap.array h s.arr = [] := by
    unfold Mem.Heap.array
    rw [List.getElem?_eq_none (by omega)]
    rfl
  have h2 := hs.2
  rw [h0] at h2
  simp at h2
  omega

/-- `append` with spare capacity: the value lands right after the elements
of the slice; a slice that shares no storage with it shows what it showed. -/
theorem Mem.Slice.append_inPlace (grow : Nat → Nat) (h : Mem.Heap) (s : Mem.Slice) (v : Int)
    (hs : s.Valid h) (hlt : s.len < s.cap) :
    (Mem.Slice.append grow h s v).2.elems (Mem.Slice.append grow h s v).1 = s.elems h ++ [v] ∧
    (Mem.Slice.append grow h s v).2.Valid (Mem.Slice.append grow h s v).1 ∧
    ∀ t : Mem.Slice, t.Valid h → s.Disjoint t →
      t.elems (Mem.Slice.append grow h s v).1 = t.elems h ∧
      t.Valid (Mem.Slice.append grow h s v).1 ∧
      (Mem.Slice.append grow h s v).2.Disjoint t := by
  have ha := Mem.Slice.arr_lt h s hs hlt
  obtain ⟨hs1, hs2⟩ := hs
  have hlen := Mem.Slice.elems_length h s ⟨hs1, hs2⟩
  have happ : Mem.Slice.append grow h s v =
      (h.set s.arr ((Mem.Heap.array h s.arr).set (s.off + s.len) v),
        { s with len := s.len + 1 }) := by
    unfold Mem.Slice.append
    rw [if_pos hlt]
  rw [happ]
  refine ⟨?_, ?_, ?_⟩
  · apply List.ext_getElem?
    intro j
    rw [Mem.Slice.elems_getElem?, Mem.Heap.array_set h _ _ _ ha]
    simp only [if_true, List.getElem?_set]
    by_cases hj : j < s.len
    · rw [List.getElem?_append_left (by omega), Mem.Slice.elems_getElem?, if_pos hj,
        if_pos (by omega), if_neg (by omega)]
    · by_cases hj2 : j = s.len
      · subst hj2
        rw [List.getElem?_append_right (by omega), hlen]
        simp
        omega
      · rw [List.getElem?_append_right (by omega), hlen, if_neg (by omega)]
        rw [List.getElem?_eq_none (by simp; omega)]
  · constructor
    · show s.len + 1 ≤ s.cap
      omega
    · show s.off + s.cap ≤ (Mem.Heap.array (h.set s.arr _) s.arr).length
      rw [Mem.Heap.array_set h _ _ _ ha]
      simpa using hs2
  · intro t ht hd
    obtain ⟨ht1, ht2⟩ := ht
    refine ⟨?_, ?_, ?_⟩
    · apply List.ext_getElem?
      intro j
      rw [Mem.Slice.elems_getElem?, Mem.Slice.elems_getElem?, Mem.Heap.array_set h _ _ _ ha]
      by_cases hj : j < t.len
      · rw [if_pos hj, if_pos hj]
        by_cases hst : s.arr = t.arr
        · rw [if_pos hst, List.getElem?_set_ne, hst]
          rcases hd with hd | hd | hd
          · exact absurd hst hd
          · omega
          · omega
        · rw [if_neg hst]
      · rw [if_neg hj, if_neg hj]
    · constructor
      · exact ht1
      · rw [Mem.Heap.array_set h _ _ _ ha]
        by_cases hst : s.arr = t.arr
        · rw [if_pos hst, List.length_set, hst]
          exact ht2
        · rw [if_neg hst]
          exact ht2
    · exact hd

/-- `append` without spare capacity: the elements and the value are at the
start of a new array, and every other slice shows what it showed. -/
theorem Mem.Slice.append_grown (grow : Nat → Nat) (h : Mem.Heap) (s : Mem.Slice) (v : Int)
    (hs : s.Valid h) (hge : ¬ s.len < s.cap) :
    (Mem.Slice.append grow h s v).2.elems (Mem.Slice.append grow h s v).1 = s.elems h ++ [v] ∧
    (Mem.Slice.append grow h s v).2.Valid (Mem.Slice.append grow h s v).1 ∧
    ∀ t : Mem.Slice, t.Valid h →
      t.elems (Mem.Slice.append grow h s v).1 = t.elems h ∧
      t.Valid (Mem.Slice.append grow h s v).1 ∧
      (Mem.Slice.append grow h s v).2.Disjoint t := by
  have hlen := Mem.Slice.elems_length h s hs
  have happ : Mem.Slice.append grow h s v =
      (h ++ [s.elems h ++ v ::
          List.replicate (max (s.len + 1) (grow (s.len + 1)) - (s.len + 1)) 0],
        { arr := h.length, off := 0, len := s.len + 1,
          cap := max (s.len + 1) (grow (s.len + 1)) }) := by
    unfold Mem.Slice.append
    rw [if_neg hge]
  rw [happ]
  have hcap : s.len + 1 ≤ max (s.len + 1) (grow (s.len + 1)) := le_max_left _ _
  refine ⟨?_, ?_, ?_⟩
  · have hel : ∀ (e : List Int) (k n : Nat), e.length = k →
        List.take (k + 1) (e ++ v :: List.replicate n 0) = e ++ [v] := by
      intro e k n he
      rw [show e ++ v :: List.replicate n 0 = (e ++ [v]) ++ List.replicate n 0 by simp]
      exact List.take_left' (by simp [he])
    show List.take (s.len + 1) (List.drop 0 (Mem.Heap.array (h ++ [_]) h.length)) = _
    rw [Mem.Heap.array_append, if_pos rfl, List.drop_zero]
    exact hel _ _ _ hlen
  · constructor
    · exact hcap
    · show 0 + max (s.len + 1) (grow (s.len + 1)) ≤ (Mem.Heap.array (h ++ [_]) h.length).length
      rw [Mem.Heap.array_append, if_pos rfl]
      simp [hlen]
      omega
  · intro t ht
    obtain ⟨ht1, ht2⟩ := ht
    by_cases hta : t.arr = h.length
    · have h0 : Mem.Heap.array h t.arr = [] := by
        unfold Mem.Heap.array
        rw [List.getElem?_eq_none (by omega)]
        rfl
      rw [h0] at ht2
      simp at ht2
      have hl0 : t.len = 0 := by omega
      refine ⟨?_, ⟨ht1, by omega⟩, Or.inr (Or.inr (by simp; omega))⟩
      simp [Mem.Slice.elems, hl0]
    · refine ⟨?_, ⟨ht1, ?_⟩, Or.inl (fun heq => hta heq.symm)⟩
      · simp only [Mem.Slice.elems, Mem.Heap.array_append, if_neg hta]
      · rw [Mem.Heap.array_append, if_neg hta]
        exact ht2

/-- `append` on a valid slice: the slice returned shows the old elements and
then the value; every valid slice that shares no storage with the old one
shows what it showed, stays valid, and shares no storage with the new
one. -/
theorem Mem.Slice.append_spec (grow : Nat → Nat) (h : Mem.Heap) (s : Mem.Slice) (v : Int)
    (hs : s.Valid h) :
    (Mem.Slice.append grow h s v).2.elems (Mem.Slice.append grow h s v).1 = s.elems h ++ [v] ∧
    (Mem.Slice.append grow h s v).2.Valid (Mem.Slice.append grow h s v).1 ∧
    ∀ t : Mem.Slice, t.Valid h → s.Disjoint t →
      t.elems (Mem.Slice.append grow h s v).1 = t.elems h ∧
      t.Valid (Mem.Slice.append grow h s v).1 ∧
      (Mem.Slice.append grow h s v).2.Disjoint t := by
  by_cases hlt : s.len < s.cap
  · exact Mem.Slice.append_inPlace grow h s v hs hlt
  · obtain ⟨h1, h2, h3⟩ := Mem.Slice.append_grown grow h s v hs hlt
    exact ⟨h1, h2, fun t ht _ => h3 t ht⟩

theorem Mem.Slice.Disjoint.symm {s t : Mem.Slice} (hd : s.Disjoint t) : t.Disjoint s := by
  rcases hd with hd | hd | hd
  · exact Or.inl (fun heq => hd heq.symm)
  · exact Or.inr (Or.inr hd)
  · exact Or.inr (Or.inl hd)

theorem Mem.Apart.apartAt {h : Mem.Heap} {views : List Mem.Slice} (ha : Mem.Apart h views) :
    Mem.ApartAt h views := by
  obtain ⟨hv, hp⟩ := ha
  rw [List.pairwise_iff_getElem] at hp
  refine ⟨fun i s hi => hv s (List.getElem?_mem hi), ?_⟩
  intro i j s t hij hi hj
  obtain ⟨hil, rfl⟩ := List.getElem?_eq_some.mp hi
  obtain ⟨hjl, rfl⟩ := List.getElem?_eq_some.mp hj
  rcases Nat.lt_or_gt_of_ne hij with hlt | hgt
  · exact hp i j hil hjl hlt
  · exact (hp j i hjl hil hgt).symm

/-- One `append` to chart `k`, on charts that share no storage: chart `k`
gains the value, every other chart shows what it showed, and the charts
still share no storage. -/
theorem Mem.ApartAt.append (grow : Nat → Nat) (h : Mem.Heap) (views : List Mem.Slice)
    (k : Nat) (hk : k < views.length) (v : Int) (ha : Mem.ApartAt h views) :
    (views.set k (Mem.Slice.append grow h views[k] v).2).map
        (Mem.Slice.elems (Mem.Slice.append grow h views[k] v).1) =
      (views.map (Mem.Slice.elems h)).set k (views[k].elems h ++ [v]) ∧
    Mem.ApartAt (Mem.Slice.append grow h views[k] v).1
      (views.set k (Mem.Slice.append grow h views[k] v).2) := by
  obtain ⟨hv, hd⟩ := ha
  have hkk : views[k]? = some views[k] := List.getElem?_eq_getElem hk
  obtain ⟨h1, h2, h3⟩ := Mem.Slice.append_spec grow h views[k] v (hv k _ hkk)
  refine ⟨?_, ?_, ?_⟩
  · apply List.ext_getElem?
    intro j
    rw [List.getElem?_map, List.getElem?_set, List.getElem?_set, List.getElem?_map]
    by_cases hkj : k = j
    · subst hkj
      simp [hk, h1]
    · rw [if_neg hkj, if_neg hkj]
      cases hj : views[j]? with
      | none => rfl
      | some t =>
        simp only [Option.map_some', Option.some.injEq]
        exact (h3 t (hv j t hj) (hd k j _ t hkj hkk hj)).1
  · intro i s hi
    rw [List.getElem?_set] at hi
    by_cases hki : k = i
    · rw [if_pos hki, if_pos hk] at hi
      injection hi with hi
      rw [← hi]
      exact h2
    · rw [if_neg hki] at hi
      exact (h3 s (hv i s hi) (hd k i _ s hki hkk hi)).2.1
  · intro i j s t hij hi hj
    rw [List.getElem?_set] at hi hj
    by_cases hki : k = i
    · rw [if_pos hki, if_pos hk] at hi
      injection hi with hi
      have hkj : k ≠ j := fun e => hij (hki.symm.trans e)
      rw [if_neg hkj] at hj
      rw [← hi]
      exact (h3 t (hv j t hj) (hd k j _ t hkj hkk hj)).2.2
    · rw [if_neg hki] at hi
      by_cases hkj : k = j
      · rw [if_pos hkj, if_pos hk] at hj
        injection hj with hj
        rw [← hj]
        exact ((h3 s (hv i s hi) (hd k i _ s hki hkk hi)).2.2).symm
      · rw [if_neg hkj] at hj
        exact hd i j s t hij hi hj

/-- The loop of `AddColumn` on charts that share no storage does to the
elements of the charts what the loop on lists does, and panics when it
does. -/
theorem Mem.Report.appendToViews_read (grow : Nat → Nat) (columnID : Int) (charts : List Int)
    (h : Mem.Heap) (views : List Mem.Slice) (ha : Mem.ApartAt h views) :
    (∀ e, helper.Report.appendToViews columnID (views.map (Mem.Slice.elems h)) charts = .error e →
      Mem.Report.appendToViews grow columnID h views charts = .error e) ∧
    (∀ lists, helper.Report.appendToViews columnID (views.map (Mem.Slice.elems h)) charts =
        .ok lists →
      ∃ h1 views1, Mem.Report.appendToViews grow columnID h views charts = .ok (h1, views1) ∧
        views1.map (Mem.Slice.elems h1) = lists ∧ Mem.ApartAt h1 views1) := by
  induction charts generalizing h views with
  | nil =>
    refine ⟨fun e he => ?_, fun lists hl => ?_⟩
    · simp [helper.Report.appendToViews] at he
    · simp only [helper.Report.appendToViews, Except.ok.injEq] at hl
      exact ⟨h, views, rfl, hl, ha⟩
  | cons c charts ih =>
    by_cases hc : 0 ≤ c ∧ c.toNat < views.length
    · have hc1 : 0 ≤ c ∧ c.toNat < (views.map (Mem.Slice.elems h)).length := by
        simpa using hc
      have hlist : helper.Report.appendToView (views.map (Mem.Slice.elems h)) c columnID =
          .ok ((views.map (Mem.Slice.elems h)).set c.toNat
            (views[c.toNat].elems h ++ [columnID])) := by
        unfold helper.Report.appendToView
        rw [dif_pos hc1]
        simp
      have hmem : Mem.Report.appendToView grow h views c columnID =
          .ok ((Mem.Slice.append grow h views[c.toNat] columnID).1,
            views.set c.toNat (Mem.Slice.append grow h views[c.toNat] columnID).2) := by
        unfold Mem.Report.appendToView
        rw [dif_pos hc]
      obtain ⟨hread, hapart⟩ := Mem.ApartAt.append grow h views c.toNat hc.2 columnID ha
      obtain ⟨ih1, ih2⟩ := ih _ _ hapart
      rw [hread] at ih1 ih2
      simp only [helper.Report.appendToViews, Mem.Report.appendToViews, hlist, hmem]
      exact ⟨ih1, ih2⟩
    · have hc1 : ¬ (0 ≤ c ∧ c.toNat < (views.map (Mem.Slice.elems h)).length) := by
        simpa using hc
      have hlist : helper.Report.appendToView (views.map (Mem.Slice.elems h)) c columnID =
          .error (.indexOutOfRange c views.length) := by
        unfold helper.Report.appendToView
        rw [dif_neg hc1]
        simp
      have hmem : Mem.Report.appendToView grow h views c columnID =
          .error (.indexOutOfRange c views.length) := by
        unfold Mem.Report.appendToView
        rw [dif_neg hc]
      simp only [helper.Report.appendToViews, Mem.Report.appendToViews, hlist, hmem]
      refine ⟨fun e he => ?_, fun lists hl => ?_⟩
      · injection he with he
        rw [he]
      · exact absurd hl (by simp)

theorem Mem.ApartAt.apart {h : Mem.Heap} {views : List Mem.Slice} (ha : Mem.ApartAt h views) :
    Mem.Apart h views := by
  obtain ⟨hv, hd⟩ := ha
  refine ⟨?_, ?_⟩
  · intro s hs
    obtain ⟨i, hi⟩ := List.mem_iff_getElem?.mp hs
    exact hv i s hi
  · rw [List.pairwise_iff_getElem]
    intro i j hi hj hij
    exact hd i j _ _ (Nat.ne_of_lt hij) (List.getElem?_eq_getElem hi)
      (List.getElem?_eq_getElem hj)

/-- `AddColumn` on a report whose charts share no storage does to what the
report shows what `AddColumn` on lists does, and panics when it does. -/
theorem Mem.Report.AddColumn_read {Time Column : Type} (grow : Nat → Nat) (h : Mem.Heap)
    (r : Mem.Report Time Column) (column : Column) (charts : List Int)
    (ha : Mem.Apart h r.Views) :
    (∀ e, (r.read h).AddColumn column charts = .error e →
      Mem.Report.AddColumn grow h r column charts = .error e) ∧
    (∀ r1, (r.read h).AddColumn column charts = .ok r1 →
      ∃ h1 r2, Mem.Report.AddColumn grow h r column charts = .ok (h1, r2) ∧
        r2.read h1 = r1 ∧ Mem.Apart h1 r2.Views) := by
  have key := Mem.Report.appendToViews_read grow (((r.Columns ++ [column]).length : Nat) : Int)
    (if charts.length = 0 then charts ++ [0] else charts) h r.Views ha.apartAt
  have hL : (r.read h).AddColumn column charts =
      match helper.Report.appendToViews (((r.Columns ++ [column]).length : Nat) : Int)
        (r.Views.map (Mem.Slice.elems h))
        (if charts.length = 0 then charts ++ [0] else charts) with
      | .ok views => .ok { r.read h with Columns := r.Columns ++ [column], Views := views }
      | .error e => .error e := rfl
  have hM : Mem.Report.AddColumn grow h r column charts =
      match Mem.Report.appendToViews grow (((r.Columns ++ [column]).length : Nat) : Int) h
        r.Views (if charts.length = 0 then charts ++ [0] else charts) with
      | .ok (h1, views) => .ok (h1, { r with Columns := r.Columns ++ [column], Views := views })
      | .error e => .error e := rfl
  cases hres : helper.Report.appendToViews (((r.Columns ++ [column]).length : Nat) : Int)
      (r.Views.map (Mem.Slice.elems h))
      (if charts.length = 0 then charts ++ [0] else charts) with
  | error e0 =>
    rw [hres] at hL
    refine ⟨fun e he => ?_, fun r1 h1 => ?_⟩
    · rw [hL] at he
      injection he with he
      rw [hM, key.1 e0 hres, he]
    · rw [hL] at h1
      exact absurd h1 (by simp)
  | ok lists =>
    rw [hres] at hL
    obtain ⟨h1, views1, hm, hmap, hap⟩ := key.2 lists hres
    refine ⟨fun e he => ?_, fun r1 hr1 => ?_⟩
    · rw [hL] at he
      exact absurd he (by simp)
    · rw [hL] at hr1
      injection hr1 with hr1
      refine ⟨h1, { r with Columns := r.Columns ++ [column], Views := views1 }, ?_, ?_,
        hap.apart⟩
      · rw [hM, hm]
      · rw [← hr1]
        simp [Mem.Report.read, hmap]

/-- With some identifier out of range the loop of `AddColumn` panics at the
first such identifier, however the charts are stored. -/
theorem Mem.Report.appendToViews_panics (grow : Nat → Nat) (columnID : Int)
    (charts : List Int) (h : Mem.Heap) (views : List Mem.Slice)
    (hbad : ∃ c ∈ charts, c < 0 ∨ (views.length : Int) ≤ c) :
    ∃ c ∈ charts, (c < 0 ∨ (views.length : Int) ≤ c) ∧
      Mem.Report.appendToViews grow columnID h views charts =
        .error (.indexOutOfRange c views.length) := by
  induction charts generalizing h views with
  | nil => simp at hbad
  | cons c charts ih =>
    by_cases hc : 0 ≤ c ∧ c.toNat < views.length
    · have hmem : Mem.Report.appendToView grow h views c columnID =
          .ok ((Mem.Slice.append grow h views[c.toNat] columnID).1,
            views.set c.toNat (Mem.Slice.append grow h views[c.toNat] columnID).2) := by
        unfold Mem.Report.appendToView
        rw [dif_pos hc]
      obtain ⟨d, hd, hdbad⟩ := hbad
      have hdc : d ∈ charts := by
        rcases List.mem_cons.mp hd with hdc | hdc
        · subst hdc
          omega
        · exact hdc
      obtain ⟨e, he, hebad, herr⟩ := ih (Mem.Slice.append grow h views[c.toNat] columnID).1
        (views.set c.toNat (Mem.Slice.append grow h views[c.toNat] columnID).2)
        ⟨d, hdc, by rw [List.length_set]; exact hdbad⟩
      rw [List.length_set] at hebad herr
      refine ⟨e, List.mem_cons_of_mem _ he, hebad, ?_⟩
      simp only [Mem.Report.appendToViews, hmem, herr]
    · have hmem : Mem.Report.appendToView grow h views c columnID =
          .error (.indexOutOfRange c views.length) := by
        unfold Mem.Report.appendToView
        rw [dif_neg hc]
      refine ⟨c, List.mem_cons_self _ _, by omega, ?_⟩
      simp only [Mem.Report.appendToViews, hmem]

/-- C7 refuted as stated: on the report whose two charts are `base[0:1]` and
`base[1:2]` of `base = []int{1, 2}`, which shows `[[1], [2]]`,
`AddColumn(column)` with no chart identifier writes the new identifier `3`
into `base[1]`; the report then shows `[[1, 3], [3]]`, so the chart that is
not the main chart has changed. -/
theorem AddColumn_main_chart_shared :
    (Mem.Report.aliased.read [[1, 2]]).Views = [[1], [2]] ∧
    ∃ h1 r1,
      Mem.Report.AddColumn (fun n => 2 * n) [[1, 2]] Mem.Report.aliased "c" [] = .ok (h1, r1) ∧
      (r1.read h1).Views = [[1, 3], [3]] ∧
      (r1.read h1).Views[1]? ≠ (Mem.Report.aliased.read [[1, 2]]).Views[1]? :=
  ⟨rfl, _, _, rfl, rfl, by decide⟩

/-- C7 (amended): on a report whose charts are valid slices that share no
storage and whose `Views` holds the main chart `main` followed by the charts
`rest`, `AddColumn(column)` with no chart identifier returns normally;
afterwards the report shows `column` as the last element of `Columns`, its
identifier (the new `len(Columns)`) as the last element of the main chart,
and every other chart, the earlier columns, `Title`, `Date`, `DateFormat` and
`GeneratedOn` as before. -/
theorem AddColumn_main_chart {Time Column : Type} (grow : Nat → Nat) (h : Mem.Heap)
    (r : Mem.Report Time Column) (column : Column) (main : Mem.Slice)
    (rest : List Mem.Slice) (hv : r.Views = main :: rest) (ha : Mem.Apart h r.Views) :
    ∃ h1 r1, Mem.Report.AddColumn grow h r column [] = .ok (h1, r1) ∧
      r1.read h1 =
        { Title := r.Title
          Date := r.Date
          Columns := r.Columns ++ [column]
          Views := (main.elems h ++ [(r.Columns.length : Int) + 1]) ::
            rest.map (Mem.Slice.elems h)
          DateFormat := r.DateFormat
          GeneratedOn := r.GeneratedOn } := by
  have hlist := Report.AddColumn_no_charts (r.read h) column (main.elems h)
    (rest.map (Mem.Slice.elems h)) (by simp [Mem.Report.read, hv])
  obtain ⟨h1, r1, hm, hread, _⟩ := (Mem.Report.AddColumn_read grow h r column [] ha).2 _ hlist
  exact ⟨h1, r1, hm, hread⟩

/-- C7 (amended) on a report with two columns whose charts lie in two
arrays, the main chart with spare capacity. -/
theorem AddColumn_main_chart_witness :
    ∃ h1 r1, Mem.Report.AddColumn (fun n => 2 * n) [[1, 0], [2]] Mem.Report.apart "c" [] =
        .ok (h1, r1) ∧
      r1.read h1 =
        { Title := "t", Date := [], Columns := ["a", "b", "c"], Views := [[1, 3], [2]],
          DateFormat := "f", GeneratedOn := "g" } :=
  AddColumn_main_chart (fun n => 2 * n) [[1, 0], [2]] Mem.Report.apart "c"
    { arr := 0, off := 0, len := 1, cap := 2 } [{ arr := 1, off := 0, len := 1, cap := 1 }]
    rfl (by decide)

/-- C8 refuted as stated: on the report whose two charts are `base[0:1]` and
`base[1:2]` of `base = []int{1, 2}`, `AddColumn(column, 0)` lists the main
chart only, and yet chart `1`, which showed `[2]`, shows `[3]` afterwards. -/
theorem AddColumn_listed_charts_shared :
    (1 : Int) ∉ [(0 : Int)] ∧
    (Mem.Report.aliased.read [[1, 2]]).Views[1]? = some [2] ∧
    ∃ h1 r1,
      Mem.Report.AddColumn (fun n => 2 * n) [[1, 2]] Mem.Report.aliased "c" [0] = .ok (h1, r1) ∧
      (r1.read h1).Views[1]? = some [3] :=
  ⟨by decide, rfl, _, _, rfl, rfl⟩

/-- C8 (amended): for a non-empty list `charts` of identifiers.  If the
charts of the report are valid slices that share no storage and all the
identifiers are in `[0, len(Views))`, `AddColumn(column, charts...)` returns
normally, appends `column` to `Columns`, keeps the number of charts and the
other fields, and appends the new column identifier to chart `i` once per
occurrence of `i` in `charts`, so a chart that is not listed (the main chart
`0` too) shows what it showed.  If some identifier is outside
`[0, len(Views))`, the call panics with index out of range, at the first such
identifier, however the charts are stored. -/
theorem AddColumn_listed_charts {Time Column : Type} (grow : Nat → Nat) (h : Mem.Heap)
    (r : Mem.Report Time Column) (column : Column) (charts : List Int) (hne : charts ≠ []) :
    (Mem.Apart h r.Views → (∀ c ∈ charts, 0 ≤ c ∧ c < (r.Views.length : Int)) →
      ∃ h1 r1, Mem.Report.AddColumn grow h r column charts = .ok (h1, r1) ∧
        r1.Columns = r.Columns ++ [column] ∧
        r1.Views.length = r.Views.length ∧
        (∀ i : Nat, (r1.read h1).Views[i]? = (r.read h).Views[i]?.map (fun v =>
          v ++ List.replicate (charts.count (i : Int)) ((r.Columns.length : Int) + 1))) ∧
        (∀ i : Nat, (i : Int) ∉ charts → (r1.read h1).Views[i]? = (r.read h).Views[i]?) ∧
        r1.Title = r.Title ∧ r1.Date = r.Date ∧ r1.DateFormat = r.DateFormat ∧
        r1.GeneratedOn = r.GeneratedOn) ∧
    ((∃ c ∈ charts, c < 0 ∨ (r.Views.length : Int) ≤ c) →
      ∃ c ∈ charts, (c < 0 ∨ (r.Views.length : Int) ≤ c) ∧
        Mem.Report.AddColumn grow h r column charts =
          .error (.indexOutOfRange c r.Views.length)) := by
  have hlen : ¬ charts.length = 0 := fun h0 => hne (List.length_eq_zero.mp h0)
  constructor
  · intro ha hall
    have hall1 : ∀ c ∈ charts, 0 ≤ c ∧ c < ((r.read h).Views.length : Int) := by
      simpa [Mem.Report.read] using hall
    obtain ⟨r0, hok, hcols, hl, hget, hnot, ht, hd, hf, hg⟩ :=
      (Report.AddColumn_charts (r.read h) column charts hne).1 hall1
    obtain ⟨h1, r1, hm, hread, _⟩ :=
      (Mem.Report.AddColumn_read grow h r column charts ha).2 r0 hok
    subst hread
    refine ⟨h1, r1, hm, hcols, ?_, hget, hnot, ht, hd, hf, hg⟩
    simpa [Mem.Report.read] using hl
  · intro hbad
    obtain ⟨c, hc, hcbad, herr⟩ := Mem.Report.appendToViews_panics grow
      (((r.Columns ++ [column]).length : Nat) : Int) charts h r.Views hbad
    refine ⟨c, hc, hcbad, ?_⟩
    have hM : Mem.Report.AddColumn grow h r column charts =
        match Mem.Report.appendToViews grow (((r.Columns ++ [column]).length : Nat) : Int) h
          r.Views (if charts.length = 0 then charts ++ [0] else charts) with
        | .ok (h1, views) =>
            .ok (h1, { r with Columns := r.Columns ++ [column], Views := views })
        | .error e => .error e := rfl
    rw [hM, if_neg hlen, herr]

/-- C8 (amended) on a report whose two charts lie in two arrays: the
identifiers `1, 0, 1` are in range, the identifiers `0, 2` are not. -/
theorem AddColumn_listed_charts_witness :
    (∃ h1 r1, Mem.Report.AddColumn (fun n => 2 * n) [[1, 0], [2]] Mem.Report.apart "c"
        [1, 0, 1] = .ok (h1, r1) ∧
      (r1.read h1).Views[0]? = some [1, 3] ∧ (r1.read h1).Views[1]? = some [2, 3, 3]) ∧
    (∃ c, Mem.Report.AddColumn (fun n => 2 * n) [[1, 0], [2]] Mem.Report.apart "c" [0, 2] =
        .error (.indexOutOfRange c 2)) := by
  constructor
  · obtain ⟨h1, r1, hm, _, _, hget, _⟩ :=
      (AddColumn_listed_charts (fun n => 2 * n) [[1, 0], [2]] Mem.Report.apart "c" [1, 0, 1]
        (by decide)).1 (by decide) (by decide)
    exact ⟨h1, r1, hm, by rw [hget 0]; rfl, by rw [hget 1]; rfl⟩
  · obtain ⟨c, _, _, herr⟩ :=
      (AddColumn_listed_charts (fun n => 2 * n) [[1, 0], [2]] Mem.Report.apart "c" [0, 2]
        (by decide)).2 ⟨2, by decide, by decide⟩
    exact ⟨c, herr⟩

/-! ## The last, incomplete turn of the loop of `Operate` -/

/-- After `k` complete turns of its loop the worker of `Operate` is back at
the top of the loop, has taken `k` values from each input and has handed over
their `k` results. -/
theorem Operate.steps_pairs {A B R : Type} (o : A → B → R) (k : Nat) (a : List A)
    (b : List B) (received : List R) (ha : k ≤ a.length) (hb : k ≤ b.length) :
    Operate.exec o (3 * k)
        { ac := a, bc := b, pc := .recvA, received := received, closed := false } =
      { ac := a.drop k, bc := b.drop k, pc := .recvA,
        received := received ++ List.zipWith o (a.take k) (b.take k), closed := false } := by
  induction k generalizing a b received with
  | zero => simp [Operate.exec]
  | succ k ih =>
    cases a with
    | nil => simp at ha
    | cons x a =>
      cases b with
      | nil => simp at hb
      | cons y b =>
        have h3 : Operate.exec o 3
            { ac := x :: a, bc := y :: b, pc := .recvA, received := received,
              closed := false } =
            { ac := a, bc := b, pc := .recvA, received := received ++ [o x y],
              closed := false } := by
          simp [Operate.exec, Operate.next, Operate.step]
        have hk : 3 * (k + 1) = 3 * k + 3 := by omega
        simp only [List.length_cons, Nat.add_le_add_iff_right] at ha hb
        rw [hk, Operate.steps_add, h3, ih a b _ ha hb]
        simp

/-- In `Drain(ac)`, `j` steps take `j` values from `ac` and nothing else
changes. -/
theorem Operate.steps_drainA_part {A B R : Type} (o : A → B → R) (j : Nat) (a : List A)
    (b : List B) (received : List R) (hj : j ≤ a.length) :
    Operate.exec o j
        { ac := a, bc := b, pc := .drainA, received := received, closed := false } =
      { ac := a.drop j, bc := b, pc := .drainA, received := received, closed := false } := by
  induction j generalizing a with
  | zero => simp [Operate.exec]
  | succ j ih =>
    cases a with
    | nil => simp at hj
    | cons x a =>
      have h1 : Operate.exec o 1
          { ac := x :: a, bc := b, pc := .drainA, received := received, closed := false } =
          { ac := a, bc := b, pc := .drainA, received := received, closed := false } := by
        simp [Operate.exec, Operate.next, Operate.step, Drain.step]
      simp only [List.length_cons, Nat.add_le_add_iff_right] at hj
      rw [Operate.steps_add, h1, ih a hj]
      simp

/-- In `Drain(bc)`, `j` steps take `j` values from `bc` and nothing else
changes. -/
theorem Operate.steps_drainB_part {A B R : Type} (o : A → B → R) (j : Nat) (a : List A)
    (b : List B) (received : List R) (hj : j ≤ b.length) :
    Operate.exec o j
        { ac := a, bc := b, pc := .drainB, received := received, closed := false } =
      { ac := a, bc := b.drop j, pc := .drainB, received := received, closed := false } := by
  induction j generalizing b with
  | zero => simp [Operate.exec]
  | succ j ih =>
    cases b with
    | nil => simp at hj
    | cons y b =>
      have h1 : Operate.exec o 1
          { ac := a, bc := y :: b, pc := .drainB, received := received, closed := false } =
          { ac := a, bc := b, pc := .drainB, received := received, closed := false } := by
        simp [Operate.exec, Operate.next, Operate.step, Drain.step]
      simp only [List.length_cons, Nat.add_le_add_iff_right] at hj
      rw [Operate.steps_add, h1, ih b hj]
      simp

/-- The steps of the worker of `Operate` when `a` is the longer input, with
`n = len b`: after `n` complete turns it takes `a[n]` from `ac`, finds `bc`
ended, and drains the rest of `ac` value by value; the values handed over
stay the `n` results. -/
theorem Operate.steps_long {A B R : Type} (o : A → B → R) (a : List A) (b : List B)
    (h : b.length < a.length) :
    Operate.exec o (3 * b.length) (Operate.start a b) =
      { ac := a.drop b.length, bc := [], pc := .recvA,
        received := List.zipWith o (a.take b.length) b, closed := false } ∧
    Operate.exec o (3 * b.length + 1) (Operate.start a b) =
      { ac := a.drop (b.length + 1), bc := [], pc := .recvB a[b.length],
        received := List.zipWith o (a.take b.length) b, closed := false } ∧
    (∀ j, j ≤ a.length - (b.length + 1) →
      Operate.exec o (3 * b.length + 2 + j) (Operate.start a b) =
        { ac := a.drop (b.length + 1 + j), bc := [], pc := .drainA,
          received := List.zipWith o (a.take b.length) b, closed := false }) ∧
    Operate.exec o (3 * b.length + 2 + (a.length - (b.length + 1)) + 1) (Operate.start a b) =
      { ac := [], bc := [], pc := .done,
        received := List.zipWith o (a.take b.length) b, closed := true } := by
  have h0 : Operate.exec o (3 * b.length) (Operate.start a b) =
      { ac := a.drop b.length, bc := [], pc := .recvA,
        received := List.zipWith o (a.take b.length) b, closed := false } := by
    have hp := Operate.steps_pairs o b.length a b [] (Nat.le_of_lt h) (Nat.le_refl _)
    simpa [Operate.start] using hp
  have hd : a.drop b.length = a[b.length] :: a.drop (b.length + 1) :=
    List.drop_eq_getElem_cons h
  have h1 : Operate.exec o (3 * b.length + 1) (Operate.start a b) =
      { ac := a.drop (b.length + 1), bc := [], pc := .recvB a[b.length],
        received := List.zipWith o (a.take b.length) b, closed := false } := by
    have hstep : ∀ (x : A) (rest : List A) (received : List R),
        Operate.exec o 1
          ({ ac := x :: rest, bc := [], pc := .recvA, received := received,
             closed := false } : Operate.Machine A B R) =
          { ac := rest, bc := [], pc := .recvB x, received := received, closed := false } := by
      intro x rest received
      simp [Operate.exec, Operate.next, Operate.step]
    rw [Nat.add_comm, Operate.steps_add, h0, hd, hstep]
  have h2 : Operate.exec o (3 * b.length + 2) (Operate.start a b) =
      { ac := a.drop (b.length + 1), bc := [], pc := .drainA,
        received := List.zipWith o (a.take b.length) b, closed := false } := by
    rw [show 3 * b.length + 2 = 1 + (3 * b.length + 1) by omega, Operate.steps_add, h1]
    simp [Operate.exec, Operate.next, Operate.step]
  have hl : (a.drop (b.length + 1)).length = a.length - (b.length + 1) := List.length_drop _ _
  refine ⟨h0, h1, ?_, ?_⟩
  · intro j hj
    rw [Nat.add_comm, Operate.steps_add, h2,
      Operate.steps_drainA_part o j _ _ _ (by rw [hl]; exact hj), List.drop_drop]
  · rw [show 3 * b.length + 2 + (a.length - (b.length + 1)) + 1 =
        ((a.drop (b.length + 1)).length + 1) + (3 * b.length + 2) by rw [hl]; omega,
      Operate.steps_add, h2, Operate.steps_drainA]

/-- The steps of the worker of `Operate` when `a` is not the longer input,
with `m = len a`: after `m` complete turns it finds `ac` ended, with
`b[m..]` still unread in `bc`, and drains `bc` value by value; the values
handed over stay the `m` results. -/
theorem Operate.steps_short {A B R : Type} (o : A → B → R) (a : List A) (b : List B)
    (h : a.length ≤ b.length) :
    Operate.exec o (3 * a.length) (Operate.start a b) =
      { ac := [], bc := b.drop a.length, pc := .recvA,
        received := List.zipWith o a (b.take a.length), closed := false } ∧
    (∀ j, j ≤ b.length - a.length →
      Operate.exec o (3 * a.length + 1 + j) (Operate.start a b) =
        { ac := [], bc := b.drop (a.length + j), pc := .drainB,
          received := List.zipWith o a (b.take a.length), closed := false }) ∧
    Operate.exec o (3 * a.length + 1 + (b.length - a.length) + 1) (Operate.start a b) =
      { ac := [], bc := [], pc := .done,
        received := List.zipWith o a (b.take a.length), closed := true } := by
  have h0 : Operate.exec o (3 * a.length) (Operate.start a b) =
      { ac := [], bc := b.drop a.length, pc := .recvA,
        received := List.zipWith o a (b.take a.length), closed := false } := by
    have hp := Operate.steps_pairs o a.length a b [] (Nat.le_refl _) h
    simpa [Operate.start] using hp
  have h1 : Operate.exec o (3 * a.length + 1) (Operate.start a b) =
      { ac := [], bc := b.drop a.length, pc := .drainB,
        received := List.zipWith o a (b.take a.length), closed := false } := by
    rw [Nat.add_comm, Operate.steps_add, h0]
    simp [Operate.exec, Operate.next, Operate.step]
  have hl : (b.drop a.length).length = b.length - a.length := List.length_drop _ _
  refine ⟨h0, ?_, ?_⟩
  · intro j hj
    rw [Nat.add_comm, Operate.steps_add, h1,
      Operate.steps_drainB_part o j _ _ _ (by rw [hl]; exact hj), List.drop_drop]
  · rw [show 3 * a.length + 1 + (b.length - a.length) + 1 =
        ((b.drop a.length).length + 1) + (3 * a.length + 1) by rw [hl]; omega,
      Operate.steps_add, h1, Operate.steps_drainB]

/-- C10: with `m = len a` and `n = len b`.  When `m > n`: after `n` complete
turns of the loop, which hand over the `n` results `o(a[i], b[i])`, the worker
of `Operate` takes `a[n]` from `ac` (which is left with `a[n+1..]`), then
finds `bc` ended and goes to `Drain(ac)` with the same `n` results handed
over, so `a[n]` is neither sent nor passed to `o`; `Drain` then takes
`a[n+1..]` value by value, and the worker returns with both inputs empty.
When `m <= n`: after `m` complete turns the worker finds `ac` ended with
`b[m..]` still unread in `bc`, so the loop has taken no value of `b` that it
did not pair and send; `Drain(bc)` then takes `b[m..]` value by value.  The
record of the steps of the worker and the channels it leaves say the same. -/
theorem Operate_discards_unpaired {A B R : Type} (a : RecvChan A) (b : RecvChan B)
    (o : A → B → R) :
    (∀ h : b.length < a.length,
      Operate.exec o (3 * b.length) (Operate.start a b) =
        { ac := a.drop b.length, bc := [], pc := .recvA,
          received := List.zipWith o (a.take b.length) b, closed := false } ∧
      Operate.exec o (3 * b.length + 1) (Operate.start a b) =
        { ac := a.drop (b.length + 1), bc := [], pc := .recvB a[b.length],
          received := List.zipWith o (a.take b.length) b, closed := false } ∧
      (∀ j, j ≤ a.length - (b.length + 1) →
        Operate.exec o (3 * b.length + 2 + j) (Operate.start a b) =
          { ac := a.drop (b.length + 1 + j), bc := [], pc := .drainA,
            received := List.zipWith o (a.take b.length) b, closed := false }) ∧
      Operate.exec o (3 * b.length + 2 + (a.length - (b.length + 1)) + 1)
          (Operate.start a b) =
        { ac := [], bc := [], pc := .done,
          received := List.zipWith o (a.take b.length) b, closed := true } ∧
      (Operate.worker a b o).ac = [] ∧
      (Operate.worker a b o).bc = [] ∧
      (Operate.worker a b o).oc.sent = List.zipWith o (a.take b.length) b ∧
      (Operate.worker a b o).log =
        (List.zip (a.take b.length) b).flatMap (Operate.pairEvents o)
          ++ [.recvA a[b.length], .endB]
          ++ (a.drop (b.length + 1)).map .drainA
          ++ [.close]) ∧
    (a.length ≤ b.length →
      Operate.exec o (3 * a.length) (Operate.start a b) =
        { ac := [], bc := b.drop a.length, pc := .recvA,
          received := List.zipWith o a (b.take a.length), closed := false } ∧
      (∀ j, j ≤ b.length - a.length →
        Operate.exec o (3 * a.length + 1 + j) (Operate.start a b) =
          { ac := [], bc := b.drop (a.length + j), pc := .drainB,
            received := List.zipWith o a (b.take a.length), closed := false }) ∧
      Operate.exec o (3 * a.length + 1 + (b.length - a.length) + 1) (Operate.start a b) =
        { ac := [], bc := [], pc := .done,
          received := List.zipWith o a (b.take a.length), closed := true } ∧
      (Operate.worker a b o).ac = [] ∧
      (Operate.worker a b o).bc = [] ∧
      (Operate.worker a b o).oc.sent = List.zipWith o a (b.take a.length) ∧
      (Operate.worker a b o).log =
        (List.zip a (b.take a.length)).flatMap (Operate.pairEvents o)
          ++ [.endA]
          ++ (b.drop a.length).map .drainB
          ++ [.close]) := by
  have hz := zipWith_take_min o a b
  constructor
  · intro h
    obtain ⟨h0, h1, h2, h3⟩ := Operate.steps_long o a b h
    have hm : min a.length b.length = b.length := by omega
    rw [hm, List.take_length] at hz
    refine ⟨h0, h1, h2, h3, by simp [Operate.worker_eq], by simp [Operate.worker_eq], ?_,
      (Operate.worker_log a b o).1 h⟩
    simp [Operate.worker_eq, hz]
  · intro h
    obtain ⟨h0, h1, h2⟩ := Operate.steps_short o a b h
    have hm : min a.length b.length = a.length := by omega
    rw [hm, List.take_length] at hz
    refine ⟨h0, h1, h2, by simp [Operate.worker_eq], by simp [Operate.worker_eq], ?_,
      (Operate.worker_log a b o).2 h⟩
    simp [Operate.worker_eq, hz]

/-- C10 at `a = [1,2,3,4]`, `b = [10,20]` and at `a = [1,2]`,
`b = [10,20,30]`, with addition: the state in which the worker holds `a[2]`,
and the state in which it finds `a` ended with `b[2]` unread. -/
theorem Operate_discards_unpaired_witness :
    (Operate.exec (fun x y : Int => x + y) 7 (Operate.start [1, 2, 3, 4] [10, 20]) =
        { ac := [4], bc := [], pc := .recvB 3, received := [11, 22], closed := false } ∧
      (Operate.worker [1, 2, 3, 4] [10, 20] (fun x y : Int => x + y)).log =
        [.recvA 1, .recvB 10, .call 1 10, .send 11, .recvA 2, .recvB 20, .call 2 20,
         .send 22, .recvA 3, .endB, .drainA 4, .close]) ∧
    (Operate.exec (fun x y : Int => x + y) 6 (Operate.start [1, 2] [10, 20, 30]) =
        { ac := [], bc := [30], pc := .recvA, received := [11, 22], closed := false } ∧
      (Operate.worker [1, 2] [10, 20, 30] (fun x y : Int => x + y)).log =
        [.recvA 1, .recvB 10, .call 1 10, .send 11, .recvA 2, .recvB 20, .call 2 20,
         .send 22, .endA, .drainB 30, .close]) := by
  constructor
  · obtain ⟨_, h1, _, _, _, _, _, hlog⟩ :=
      (Operate_discards_unpaired [1, 2, 3, 4] [10, 20] (fun x y : Int => x + y)).1 (by decide)
    exact ⟨h1, hlog⟩
  · obtain ⟨h0, _, _, _, _, _, hlog⟩ :=
      (Operate_discards_unpaired [1, 2] [10, 20, 30] (fun x y : Int => x + y)).2 (by decide)
    exact ⟨h0, hlog⟩

end helper
